import Mathlib

/-!
# Verification of the GJ-3 text pipeline

Shallow embedding, over `List Char`, of the core text-processing functions of
the repository:

* `normalizeText` (src/app.js): whitespace/line-ending canonicalization;
* the diff grouping and reconstruction (`computeDiffs` / `buildFinalText`,
  src/app.js);
* the rich-text run remapper `mapTextToRuns` (src/background.js);
* the job parsers `parseJobWithLLM` / `fallbackParseJob`
  (src/scraper/jobParser.js);
* the keyword extractor `extractKeywords` (src/app.js).

Strings are modelled as `List Char`; JavaScript regular-expression
replacement is modelled by explicit scanning functions that reproduce the
leftmost-match / greedy-with-backtracking semantics of the concrete patterns
appearing in the source.
-/

namespace GJ3

/-- The character class matched by the JavaScript regex `\s` (also the set
stripped by `String.prototype.trim`): space, `\t`, `\n`, `\v`, `\f`, `\r`,
NBSP, and the Unicode space separators plus BOM. -/
def isJsWs (c : Char) : Bool :=
  c = ' ' || c = '\t' || c = '\n' || c.val = 0x0b || c.val = 0x0c || c = '\r' ||
  c.val = 0xA0 || c.val = 0x1680 ||
  (0x2000 ≤ c.val && c.val ≤ 0x200A) ||
  c.val = 0x2028 || c.val = 0x2029 || c.val = 0x202F || c.val = 0x205F ||
  c.val = 0x3000 || c.val = 0xFEFF

/-- `text.replace(/\r/g, '')` — strip every carriage return. -/
def stripCR (l : List Char) : List Char :=
  l.filter (fun c => c ≠ '\r')

/-- Index of the last `'\n'` in a list, if any. -/
def lastNlIdx : List Char → Option Nat
  | [] => none
  | c :: rest =>
    match lastNlIdx rest with
    | some k => some (k + 1)
    | none => if c = '\n' then some 0 else none

/-- One attempted match of the tail `\\s+\\n` of the regex `-\\s+\\n` against
`rest` (the text following a `'-'`).  The greedy `\\s+` with backtracking
matches up to the last `'\\n'` inside the maximal whitespace run, provided at
least one whitespace character precedes that `'\\n'`.  Returns the remainder
of the input after the match, or `none` if there is no match here. -/
def tryDash (rest : List Char) : Option (List Char) :=
  match lastNlIdx (rest.takeWhile isJsWs) with
  | some k =>
    if 1 ≤ k then
      some ((rest.takeWhile isJsWs).drop (k + 1) ++ rest.drop (rest.takeWhile isJsWs).length)
    else none
  | none => none

theorem lastNlIdx_lt_length {w : List Char} {k : Nat}
    (h : lastNlIdx w = some k) : k < w.length := by
  induction w generalizing k with
  | nil => simp [lastNlIdx] at h
  | cons c rest ih =>
    simp only [lastNlIdx] at h
    cases hr : lastNlIdx rest with
    | some j =>
      rw [hr] at h
      cases h
      exact Nat.succ_lt_succ (ih hr)
    | none =>
      rw [hr] at h
      by_cases hc : c = '\n'
      · simp only [hc, if_pos] at h
        cases h
        simp
      · simp [hc] at h

theorem tryDash_length {rest rest' : List Char}
    (h : tryDash rest = some rest') : rest'.length + 2 ≤ rest.length := by
  unfold tryDash at h
  cases hl : lastNlIdx (rest.takeWhile isJsWs) with
  | none => rw [hl] at h; exact absurd h (by simp)
  | some k =>
    rw [hl] at h
    by_cases hk : 1 ≤ k
    · simp only [hk, if_pos] at h
      have hkw := lastNlIdx_lt_length hl
      have hwl : (rest.takeWhile isJsWs).length ≤ rest.length :=
        (List.takeWhile_sublist isJsWs).length_le
      cases h
      simp only [List.length_append, List.length_drop]
      omega
    · simp [hk] at h

/-- Fuel-indexed worker for `replaceDash` (structural recursion on the fuel,
so that concrete instances reduce in the kernel).  With fuel at least the
length of the input the fuel never runs out. -/
def replaceDashF : Nat → List Char → List Char
  | 0, l => l
  | _ + 1, [] => []
  | fuel + 1, c :: rest =>
    if c = '-' then
      match tryDash rest with
      | some rest' => replaceDashF fuel rest'
      | none => c :: replaceDashF fuel rest
    else c :: replaceDashF fuel rest

/-- `text.replace` with the global regex `-\\s+\\n` and empty replacement —
a single left-to-right global pass, deleting each (greedy, leftmost) match
and resuming the scan immediately after the deleted text. -/
def replaceDash (l : List Char) : List Char := replaceDashF l.length l

theorem replaceDashF_fuel {f₁ f₂ : Nat} {l : List Char}
    (h₁ : l.length ≤ f₁) (h₂ : l.length ≤ f₂) :
    replaceDashF f₁ l = replaceDashF f₂ l := by
  induction f₁ generalizing f₂ l with
  | zero =>
    have : l = [] := by
      cases l with
      | nil => rfl
      | cons c r => simp at h₁
    subst this
    cases f₂ <;> simp [replaceDashF]
  | succ f₁ ih =>
    cases l with
    | nil => cases f₂ <;> simp [replaceDashF]
    | cons c rest =>
      cases f₂ with
      | zero => simp at h₂
      | succ f₂ =>
        simp only [List.length_cons] at h₁ h₂
        have hr₁ : rest.length ≤ f₁ := by omega
        have hr₂ : rest.length ≤ f₂ := by omega
        simp only [replaceDashF]
        by_cases hc : c = '-'
        · simp only [hc, if_pos]
          cases ht : tryDash rest with
          | some rest' =>
            have hlen := tryDash_length ht
            exact @ih f₂ rest' (by omega) (by omega)
          | none =>
            rw [@ih f₂ rest hr₁ hr₂]
        · rw [if_neg hc, if_neg hc, @ih f₂ rest hr₁ hr₂]

theorem replaceDash_nil : replaceDash [] = [] := rfl

theorem replaceDash_cons (c : Char) (rest : List Char) :
    replaceDash (c :: rest) =
      if c = '-' then
        match tryDash rest with
        | some rest' => replaceDash rest'
        | none => c :: replaceDash rest
      else c :: replaceDash rest := by
  show replaceDashF (rest.length + 1) (c :: rest) = _
  simp only [replaceDashF]
  by_cases hc : c = '-'
  · simp only [hc, if_pos]
    cases ht : tryDash rest with
    | some rest' =>
      have := tryDash_length ht
      exact @replaceDashF_fuel rest.length rest'.length rest' (by omega) (Nat.le_refl _)
    | none => rfl
  · rw [if_neg hc, if_neg hc]
    rfl

/-- Fuel-indexed worker for `collapseNl`. -/
def collapseNlF : Nat → List Char → List Char
  | 0, l => l
  | _ + 1, [] => []
  | fuel + 1, c :: rest =>
    if c = '\n' then
      if 2 ≤ (rest.takeWhile (fun d => d = '\n')).length then
        '\n' :: '\n' :: collapseNlF fuel (rest.drop (rest.takeWhile (fun d => d = '\n')).length)
      else c :: collapseNlF fuel rest
    else c :: collapseNlF fuel rest

/-- `text.replace` with the global regex matching three or more consecutive
newlines, replacement `"\n\n"` — collapse every maximal run of three or more
newlines to exactly two. -/
def collapseNl (l : List Char) : List Char := collapseNlF l.length l

theorem collapseNlF_fuel {f₁ f₂ : Nat} {l : List Char}
    (h₁ : l.length ≤ f₁) (h₂ : l.length ≤ f₂) :
    collapseNlF f₁ l = collapseNlF f₂ l := by
  induction f₁ generalizing f₂ l with
  | zero =>
    have : l = [] := by
      cases l with
      | nil => rfl
      | cons c r => simp at h₁
    subst this
    cases f₂ <;> simp [collapseNlF]
  | succ f₁ ih =>
    cases l with
    | nil => cases f₂ <;> simp [collapseNlF]
    | cons c rest =>
      cases f₂ with
      | zero => simp at h₂
      | succ f₂ =>
        simp only [List.length_cons] at h₁ h₂
        have hr₁ : rest.length ≤ f₁ := by omega
        have hr₂ : rest.length ≤ f₂ := by omega
        simp only [collapseNlF]
        have hdrop : (rest.drop (rest.takeWhile (fun d => d = '\n')).length).length ≤ rest.length := by
          simp only [List.length_drop]; omega
        by_cases hc : c = '\n'
        · simp only [hc, if_pos]
          by_cases h2 : 2 ≤ (rest.takeWhile (fun d => d = '\n')).length
          · rw [if_pos h2,
              @ih f₂ (rest.drop (rest.takeWhile (fun d => d = '\n')).length) (by omega) (by omega),
              if_pos h2]
          · rw [if_neg h2, if_neg h2, @ih f₂ rest hr₁ hr₂]
        · rw [if_neg hc, if_neg hc, @ih f₂ rest hr₁ hr₂]

theorem collapseNl_nil : collapseNl [] = [] := rfl

theorem collapseNl_cons (c : Char) (rest : List Char) :
    collapseNl (c :: rest) =
      if c = '\n' then
        if 2 ≤ (rest.takeWhile (fun d => d = '\n')).length then
          '\n' :: '\n' :: collapseNl (rest.drop (rest.takeWhile (fun d => d = '\n')).length)
        else c :: collapseNl rest
      else c :: collapseNl rest := by
  show collapseNlF (rest.length + 1) (c :: rest) = _
  simp only [collapseNlF]
  have hdrop : (rest.drop (rest.takeWhile (fun d => d = '\n')).length).length ≤ rest.length := by
    simp only [List.length_drop]; omega
  by_cases hc : c = '\n'
  · simp only [hc, if_pos]
    by_cases h2 : 2 ≤ (rest.takeWhile (fun d => d = '\n')).length
    · rw [if_pos h2,
        @collapseNlF_fuel rest.length _ (rest.drop (rest.takeWhile (fun d => d = '\n')).length)
          (by omega) (Nat.le_refl _), if_pos h2]
      rfl
    · rw [if_neg h2, if_neg h2]
      rfl
  · rw [if_neg hc, if_neg hc]
    rfl

/-- Drop leading JavaScript whitespace. -/
def trimLeft (l : List Char) : List Char := l.dropWhile isJsWs

/-- Drop trailing JavaScript whitespace. -/
def trimRight (l : List Char) : List Char := (trimLeft l.reverse).reverse

/-- `String.prototype.trim`. -/
def trimWs (l : List Char) : List Char := trimLeft (trimRight l)

/-- `normalizeText` from src/app.js: strip `\r`, apply the global replacement
of the regex `-\s+\n` by the empty string, apply the global replacement of
the regex `\n` repeated three or more times by two newlines, then trim. -/
def normalizeText (l : List Char) : List Char :=
  trimWs (collapseNl (replaceDash (stripCR l)))

example : normalizeText "foo-\nbar".toList = "foo-\nbar".toList := by decide
example : normalizeText "foo- \nbar".toList = "foobar".toList := by decide
example : normalizeText "foo-\n\nbar".toList = "foobar".toList := by decide
example : normalizeText "a-  \n \n  b".toList = "a  b".toList := by decide
example : normalizeText "x\n\n\n\n\ny".toList = "x\n\ny".toList := by decide
example : replaceDash "A-\n- \nB".toList = "A-\nB".toList := by decide


/-! ## Diff engine (src/app.js, `computeDiffs` / `buildFinalText`)

The character diff itself is produced by the external diff-match-patch
library (`dmp.diff_main` followed by `dmp.diff_cleanupSemantic`), which is
not part of this repository.  Modelled from the spec: any edit script
satisfying the standard diff contract — deletions and equalities concatenate
to the original text, insertions and equalities concatenate to the candidate
text — may appear here (`validDiff`); the grouping and reconstruction code is
embedded from the source. -/

/-- Diff operation tags (`DIFF_EQUAL` / `DIFF_INSERT` / `DIFF_DELETE`). -/
inductive DiffOp where
  | equal : DiffOp
  | insert : DiffOp
  | delete : DiffOp
deriving DecidableEq, Repr

/-- Concatenation of the EQUAL and DELETE texts of an edit script: the text
the script was computed from. -/
def recoverOriginal : List (DiffOp × List Char) → List Char
  | [] => []
  | (op, text) :: rest =>
    (if op = DiffOp.insert then [] else text) ++ recoverOriginal rest

/-- Concatenation of the EQUAL and INSERT texts of an edit script: the text
the script produces. -/
def recoverNew : List (DiffOp × List Char) → List Char
  | [] => []
  | (op, text) :: rest =>
    (if op = DiffOp.delete then [] else text) ++ recoverNew rest

/-- The contract of the external diff library (spec §4.4): the edit script
connects `original` to `candidate`. -/
def validDiff (original candidate : List Char) (diffs : List (DiffOp × List Char)) : Prop :=
  recoverOriginal diffs = original ∧ recoverNew diffs = candidate

/-- A diff segment as produced by `computeDiffs`: operation, text, and the
review-group id (`null` for EQUAL segments). -/
structure Segment where
  op : DiffOp
  text : List Char
  groupId : Option Int
deriving DecidableEq, Repr

/-- A reviewable change group (`{id, deleteText, insertText, accepted}`),
created with `accepted = true`. -/
structure ChangeGroup where
  id : Int
  deleteText : List Char
  insertText : List Char
  accepted : Bool
deriving DecidableEq, Repr

/-- The group-id assignment pass of `computeDiffs`: an EQUAL segment gets
`groupId = null`; a non-EQUAL segment increments the counter iff the previous
segment was EQUAL or absent, and receives the current counter value.
`gid` starts at `-1`, `prevEq` at `true` (no previous segment). -/
def assignGroups : Int → Bool → List (DiffOp × List Char) → List Segment
  | _, _, [] => []
  | gid, prevEq, (op, text) :: rest =>
    if op = DiffOp.equal then
      ⟨op, text, none⟩ :: assignGroups gid true rest
    else
      let gid' := if prevEq then gid + 1 else gid
      ⟨op, text, some gid'⟩ :: assignGroups gid' false rest

/-- `group.deleteText += segment.text` / `group.insertText += segment.text`. -/
def addToGroup (op : DiffOp) (text : List Char) (g : ChangeGroup) : ChangeGroup :=
  if op = DiffOp.delete then { g with deleteText := g.deleteText ++ text }
  else if op = DiffOp.insert then { g with insertText := g.insertText ++ text }
  else g

/-- The group-collection pass of `computeDiffs`: walk the segments, skip
EQUAL ones, find (or create, with `accepted = true`) the group with the
segment's id and accumulate the segment's text into it. -/
def buildGroups (acc : List ChangeGroup) : List Segment → List ChangeGroup
  | [] => acc
  | seg :: rest =>
    match seg.groupId with
    | none => buildGroups acc rest
    | some gid =>
      let acc' :=
        if (acc.find? (fun g => g.id = gid)).isSome then
          acc.map (fun g => if g.id = gid then addToGroup seg.op seg.text g else g)
        else
          acc ++ [addToGroup seg.op seg.text ⟨gid, [], [], true⟩]
      buildGroups acc' rest

/-- `computeDiffs` from src/app.js, applied to the edit script returned by
the external diff library: returns the segments with group ids and the
change groups. -/
def computeDiffs (diffs : List (DiffOp × List Char)) : List Segment × List ChangeGroup :=
  let segs := assignGroups (-1) true diffs
  (segs, buildGroups [] segs)

/-- JavaScript `a || b` on strings: the empty string is falsy. -/
def jsOrElse (a b : List Char) : List Char := if a = [] then b else a

/-- The acceptance map of `buildFinalText`
(`new Map(state.diffGroups.map(g => [g.id, g.accepted]))`): looking up an
absent id yields `undefined`, which is falsy. -/
def acceptedOf (groups : List ChangeGroup) (gid : Int) : Bool :=
  match groups.find? (fun g => g.id = gid) with
  | some g => g.accepted
  | none => false

/-- One step of the reconstruction fold of `buildFinalText`. -/
def bftStep (groups : List ChangeGroup) (result : List Char) (seg : Segment) : List Char :=
  match seg.groupId with
  | none => result ++ seg.text
  | some gid =>
    if acceptedOf groups gid = true ∧ seg.op = DiffOp.insert then result ++ seg.text
    else if acceptedOf groups gid = false ∧ seg.op = DiffOp.delete then result ++ seg.text
    else result

/-- `buildFinalText` from src/app.js.  `segs` and `groups` play the role of
`state.diffsWithGroup` and `state.diffGroups`; `tailoredText` and
`resumeText` the corresponding state fields.  An EQUAL segment is always
emitted; a grouped segment consults its group's `accepted` flag (an absent
group behaves as `undefined`, i.e. not accepted). -/
def buildFinalText (segs : List Segment) (groups : List ChangeGroup)
    (tailoredText resumeText : List Char) : List Char :=
  if segs = [] then jsOrElse tailoredText resumeText
  else segs.foldl (bftStep groups) []

/-- The text `bftStep` appends for one segment. -/
def bftPiece (groups : List ChangeGroup) (seg : Segment) : List Char :=
  bftStep groups [] seg

theorem bftStep_eq (groups : List ChangeGroup) (result : List Char) (seg : Segment) :
    bftStep groups result seg = result ++ bftPiece groups seg := by
  obtain ⟨op, text, gid⟩ := seg
  cases gid with
  | none => simp [bftStep, bftPiece]
  | some g =>
    simp only [bftStep, bftPiece]
    by_cases h1 : acceptedOf groups g = true ∧ op = DiffOp.insert
    · simp [h1]
    · by_cases h2 : acceptedOf groups g = false ∧ op = DiffOp.delete
      · simp [h1, h2]
      · simp [h1, h2]

theorem foldl_bftStep (groups : List ChangeGroup) (segs : List Segment) (acc : List Char) :
    segs.foldl (bftStep groups) acc = acc ++ (segs.map (bftPiece groups)).flatten := by
  induction segs generalizing acc with
  | nil => simp
  | cons seg rest ih =>
    simp only [List.foldl_cons, List.map_cons, List.flatten_cons]
    rw [ih, bftStep_eq]
    simp [List.append_assoc]


theorem addToGroup_id (op : DiffOp) (text : List Char) (g : ChangeGroup) :
    (addToGroup op text g).id = g.id := by
  unfold addToGroup
  split <;> [rfl; split <;> rfl]

theorem addToGroup_accepted (op : DiffOp) (text : List Char) (g : ChangeGroup) :
    (addToGroup op text g).accepted = g.accepted := by
  unfold addToGroup
  split <;> [rfl; split <;> rfl]

theorem buildGroups_accepted (segs : List Segment) (acc : List ChangeGroup)
    (hacc : ∀ g ∈ acc, g.accepted = true) :
    ∀ g ∈ buildGroups acc segs, g.accepted = true := by
  induction segs generalizing acc with
  | nil => simpa [buildGroups] using hacc
  | cons seg rest ih =>
    simp only [buildGroups]
    cases seg.groupId with
    | none => exact ih acc hacc
    | some gid =>
      simp only
      split
      · refine ih _ (fun g hg => ?_)
        rcases List.mem_map.mp hg with ⟨g₀, hg₀, rfl⟩
        split
        · rw [addToGroup_accepted]; exact hacc g₀ hg₀
        · exact hacc g₀ hg₀
      · refine ih _ (fun g hg => ?_)
        rcases List.mem_append.mp hg with hmem | hmem
        · exact hacc g hmem
        · rcases List.mem_singleton.mp hmem with rfl
          rw [addToGroup_accepted]

theorem buildGroups_id_mono (segs : List Segment) (acc : List ChangeGroup) (gid : Int)
    (hex : ∃ g ∈ acc, g.id = gid) :
    ∃ g ∈ buildGroups acc segs, g.id = gid := by
  induction segs generalizing acc with
  | nil => simpa [buildGroups] using hex
  | cons seg rest ih =>
    simp only [buildGroups]
    cases seg.groupId with
    | none => exact ih acc hex
    | some gid' =>
      simp only
      split
      · refine ih _ ?_
        rcases hex with ⟨g₀, hg₀, hid⟩
        refine ⟨if g₀.id = gid' then addToGroup seg.op seg.text g₀ else g₀, ?_, ?_⟩
        · exact List.mem_map.mpr ⟨g₀, hg₀, rfl⟩
        · split
          · rw [addToGroup_id]; exact hid
          · exact hid
      · refine ih _ ?_
        rcases hex with ⟨g₀, hg₀, hid⟩
        exact ⟨g₀, List.mem_append.mpr (Or.inl hg₀), hid⟩

theorem buildGroups_covers (segs : List Segment) (acc : List ChangeGroup) :
    ∀ seg ∈ segs, ∀ gid, seg.groupId = some gid →
      ∃ g ∈ buildGroups acc segs, g.id = gid := by
  induction segs generalizing acc with
  | nil => intro seg h; exact absurd h (List.not_mem_nil seg)
  | cons seg₀ rest ih =>
    intro seg hseg gid hgid
    rcases List.mem_cons.mp hseg with rfl | hmem
    · simp only [buildGroups, hgid]
      apply buildGroups_id_mono
      split
      · rename_i hfound
        rcases Option.isSome_iff_exists.mp hfound with ⟨g₀, hg₀⟩
        have hmem₀ := List.mem_of_find?_eq_some hg₀
        have hid₀ : g₀.id = gid := by
          have := List.find?_some hg₀
          exact of_decide_eq_true this
        refine ⟨if g₀.id = gid then addToGroup seg.op seg.text g₀ else g₀,
          List.mem_map.mpr ⟨g₀, hmem₀, rfl⟩, ?_⟩
        rw [if_pos hid₀, addToGroup_id]
        exact hid₀
      · exact ⟨addToGroup seg.op seg.text ⟨gid, [], [], true⟩,
          List.mem_append.mpr (Or.inr (List.mem_singleton.mpr rfl)), by rw [addToGroup_id]⟩
    · simp only [buildGroups]
      cases hg : seg₀.groupId with
      | none => exact ih acc seg hmem gid hgid
      | some gid' => exact ih _ seg hmem gid hgid

theorem acceptedOf_eq_of_mem (groups : List ChangeGroup) (gid : Int) (b : Bool)
    (hex : ∃ g ∈ groups, g.id = gid) (hall : ∀ g ∈ groups, g.accepted = b) :
    acceptedOf groups gid = b := by
  unfold acceptedOf
  cases hf : groups.find? (fun g => g.id = gid) with
  | some g => exact hall g (List.mem_of_find?_eq_some hf)
  | none =>
    exfalso
    rcases hex with ⟨g, hg, hid⟩
    have := List.find?_eq_none.mp hf g hg
    simp [hid] at this

/-- Unfolding `assignGroups` at an EQUAL head. -/
theorem assignGroups_equal (gid : Int) (pe : Bool) (text : List Char)
    (rest : List (DiffOp × List Char)) :
    assignGroups gid pe ((DiffOp.equal, text) :: rest) =
      ⟨DiffOp.equal, text, none⟩ :: assignGroups gid true rest := by
  simp [assignGroups]

/-- Unfolding `assignGroups` at a non-EQUAL head. -/
theorem assignGroups_ne (gid : Int) (pe : Bool) (op : DiffOp) (text : List Char)
    (rest : List (DiffOp × List Char)) (h : ¬ op = DiffOp.equal) :
    assignGroups gid pe ((op, text) :: rest) =
      ⟨op, text, some (if pe then gid + 1 else gid)⟩ ::
        assignGroups (if pe then gid + 1 else gid) false rest := by
  simp [assignGroups, h]

/-- The reconstruction pieces of the segments produced by `assignGroups`:
when every assigned group id reads back acceptance `b`, the concatenation is
the candidate text (`b = true`) or the original text (`b = false`). -/
theorem assignGroups_pieces (diffs : List (DiffOp × List Char)) (gid : Int) (pe : Bool)
    (groups : List ChangeGroup) (b : Bool)
    (hacc : ∀ seg ∈ assignGroups gid pe diffs, ∀ i, seg.groupId = some i →
      acceptedOf groups i = b) :
    ((assignGroups gid pe diffs).map (bftPiece groups)).flatten =
      if b = true then recoverNew diffs else recoverOriginal diffs := by
  induction diffs generalizing gid pe with
  | nil => cases b <;> simp [assignGroups, recoverNew, recoverOriginal]
  | cons d rest ih =>
    obtain ⟨op, text⟩ := d
    by_cases hop : op = DiffOp.equal
    · subst hop
      rw [assignGroups_equal] at hacc ⊢
      simp only [List.map_cons, List.flatten_cons]
      have hpiece : bftPiece groups ⟨DiffOp.equal, text, none⟩ = text := by
        simp [bftPiece, bftStep]
      rw [hpiece, ih gid true (fun seg hseg => hacc seg (List.mem_cons_of_mem _ hseg))]
      cases b <;> simp [recoverNew, recoverOriginal]
    · rw [assignGroups_ne gid pe op text rest hop] at hacc ⊢
      simp only [List.map_cons, List.flatten_cons]
      have hseg : acceptedOf groups (if pe then gid + 1 else gid) = b :=
        hacc ⟨op, text, some (if pe then gid + 1 else gid)⟩ (List.mem_cons_self _ _) _ rfl
      rw [ih (if pe then gid + 1 else gid) false
        (fun seg hseg₂ => hacc seg (List.mem_cons_of_mem _ hseg₂))]
      cases hopc : op with
      | equal => exact absurd hopc hop
      | insert =>
        cases b with
        | true =>
          rw [show bftPiece groups ⟨DiffOp.insert, text, some (if pe then gid + 1 else gid)⟩
              = text from by simp [bftPiece, bftStep, hseg]]
          simp [recoverNew]
        | false =>
          rw [show bftPiece groups ⟨DiffOp.insert, text, some (if pe then gid + 1 else gid)⟩
              = [] from by simp [bftPiece, bftStep, hseg]]
          simp [recoverOriginal]
      | delete =>
        cases b with
        | true =>
          rw [show bftPiece groups ⟨DiffOp.delete, text, some (if pe then gid + 1 else gid)⟩
              = [] from by simp [bftPiece, bftStep, hseg]]
          simp [recoverNew]
        | false =>
          rw [show bftPiece groups ⟨DiffOp.delete, text, some (if pe then gid + 1 else gid)⟩
              = text from by simp [bftPiece, bftStep, hseg]]
          simp [recoverOriginal]

theorem assignGroups_cons_ne_nil (gid : Int) (pe : Bool) (d : DiffOp × List Char)
    (rest : List (DiffOp × List Char)) :
    assignGroups gid pe (d :: rest) ≠ [] := by
  obtain ⟨op, text⟩ := d
  by_cases hop : op = DiffOp.equal
  · subst hop
    rw [assignGroups_equal]
    simp
  · rw [assignGroups_ne gid pe op text rest hop]
    simp

/-- Claim C1: for every pair of texts (original, candidate) and every edit
script satisfying the diff contract between them, after `computeDiffs`
populates the segment list and the change groups, `buildFinalText` with every
group's `accepted` flag `true` (the default) returns exactly the candidate
text, and with every group's `accepted` flag set to `false` returns exactly
the original text. -/
theorem buildFinalText_roundTrip (original candidate : List Char)
    (diffs : List (DiffOp × List Char)) (hv : validDiff original candidate diffs) :
    buildFinalText (computeDiffs diffs).1 (computeDiffs diffs).2 candidate original
        = candidate ∧
    buildFinalText (computeDiffs diffs).1
        ((computeDiffs diffs).2.map (fun g => { g with accepted := false }))
        candidate original
      = original := by
  obtain ⟨ho, hn⟩ := hv
  have hc1 : (computeDiffs diffs).1 = assignGroups (-1) true diffs := rfl
  have hc2 : (computeDiffs diffs).2 = buildGroups [] (assignGroups (-1) true diffs) := rfl
  rw [hc1, hc2]
  cases diffs with
  | nil =>
    simp only [recoverOriginal] at ho
    simp only [recoverNew] at hn
    subst ho hn
    constructor <;> rfl
  | cons d rest =>
    have hne := assignGroups_cons_ne_nil (-1) true d rest
    have hall : ∀ g ∈ buildGroups [] (assignGroups (-1) true (d :: rest)),
        g.accepted = true :=
      buildGroups_accepted _ [] (by intro g hg; exact absurd hg (List.not_mem_nil g))
    constructor
    · rw [buildFinalText, if_neg hne, foldl_bftStep, List.nil_append]
      rw [assignGroups_pieces (d :: rest) (-1) true _ true ?hacc]
      · exact hn
      case hacc =>
        intro seg hs i hi
        exact acceptedOf_eq_of_mem _ _ _
          (buildGroups_covers (assignGroups (-1) true (d :: rest)) [] seg hs i hi) hall
    · rw [buildFinalText, if_neg hne, foldl_bftStep, List.nil_append]
      rw [assignGroups_pieces (d :: rest) (-1) true _ false ?hacc2]
      · exact ho
      case hacc2 =>
        intro seg hs i hi
        rcases buildGroups_covers (assignGroups (-1) true (d :: rest)) [] seg hs i hi
          with ⟨g, hg, hid⟩
        refine acceptedOf_eq_of_mem _ _ _
          ⟨{ g with accepted := false }, List.mem_map.mpr ⟨g, hg, rfl⟩, hid⟩ ?_
        intro g' hg'
        rcases List.mem_map.mp hg' with ⟨g₀, _, rfl⟩
        rfl

/-- Witness for C1 at a concrete input: original `"abc"`, candidate `"axc"`,
edit script `[EQUAL "a", DELETE "b", INSERT "x", EQUAL "c"]`. -/
theorem buildFinalText_roundTrip_witness :
    validDiff "abc".toList "axc".toList
      [(DiffOp.equal, "a".toList), (DiffOp.delete, "b".toList),
       (DiffOp.insert, "x".toList), (DiffOp.equal, "c".toList)] ∧
    (buildFinalText
        (computeDiffs [(DiffOp.equal, "a".toList), (DiffOp.delete, "b".toList),
          (DiffOp.insert, "x".toList), (DiffOp.equal, "c".toList)]).1
        (computeDiffs [(DiffOp.equal, "a".toList), (DiffOp.delete, "b".toList),
          (DiffOp.insert, "x".toList), (DiffOp.equal, "c".toList)]).2
        "axc".toList "abc".toList = "axc".toList ∧
      buildFinalText
        (computeDiffs [(DiffOp.equal, "a".toList), (DiffOp.delete, "b".toList),
          (DiffOp.insert, "x".toList), (DiffOp.equal, "c".toList)]).1
        ((computeDiffs [(DiffOp.equal, "a".toList), (DiffOp.delete, "b".toList),
          (DiffOp.insert, "x".toList), (DiffOp.equal, "c".toList)]).2.map
            (fun g => { g with accepted := false }))
        "axc".toList "abc".toList = "abc".toList) :=
  ⟨⟨rfl, rfl⟩, buildFinalText_roundTrip "abc".toList "axc".toList
    [(DiffOp.equal, "a".toList), (DiffOp.delete, "b".toList),
     (DiffOp.insert, "x".toList), (DiffOp.equal, "c".toList)] ⟨rfl, rfl⟩⟩

/-! ## Rich-text run remapper (src/background.js, `mapTextToRuns`)

A `Run` models one formatted text run.  `properties` (always a truthy
JavaScript object in the source, produced by the docx parser) and the opaque
`originalRPr` formatting handle (a DOM node or `null`) are modelled by type
parameters; `originalRPr : Option R` with `none` for `null`.  The character
diff used for alignment is produced by the external diff-match-patch library
and is therefore passed in as an edit script (see `validDiff`). -/

structure Run (P R : Type) where
  text : List Char
  properties : P
  paragraphIndex : Nat
  runIndex : Nat
  originalRPr : Option R
deriving DecidableEq

/-- Concatenation, in order, of the `text` fields of a run list. -/
def concatTexts {P R : Type} (runs : List (Run P R)) : List Char :=
  (runs.map (fun r => r.text)).flatten

/-- The EQUAL-segment while loop of `mapTextToRuns`: consume `remaining`
characters from the original runs starting at cursor (`idx`, `ci`), emitting
runs that preserve the source run's formatting (copying a whole run verbatim
when it is consumed from offset 0, otherwise splitting it and propagating its
formatting handle).  Structural on the fuel; with fuel at least
`remaining.length + runs.length` the fuel never runs out. -/
def eqLoopF {P R : Type} :
    Nat → List (Run P R) → List Char → Nat → Nat → List (Run P R) →
      List (Run P R) × Nat × Nat
  | 0, _, _, idx, ci, acc => (acc, idx, ci)
  | fuel + 1, runs, remaining, idx, ci, acc =>
    if remaining = [] then (acc, idx, ci)
    else
      match runs.get? idx with
      | none => (acc, idx, ci)
      | some currentRun =>
        if ci = 0 ∧ min remaining.length (currentRun.text.length - ci) = currentRun.text.length then
          eqLoopF fuel runs (remaining.drop (min remaining.length (currentRun.text.length - ci)))
            (idx + 1) 0
            (acc ++ [⟨currentRun.text, currentRun.properties, currentRun.paragraphIndex,
              acc.length, currentRun.originalRPr⟩])
        else
          if currentRun.text.length ≤ ci + min remaining.length (currentRun.text.length - ci) then
            eqLoopF fuel runs (remaining.drop (min remaining.length (currentRun.text.length - ci)))
              (idx + 1) 0
              (acc ++ [⟨(currentRun.text.drop ci).take (min remaining.length (currentRun.text.length - ci)),
                currentRun.properties, currentRun.paragraphIndex, acc.length, currentRun.originalRPr⟩])
          else
            eqLoopF fuel runs (remaining.drop (min remaining.length (currentRun.text.length - ci)))
              idx (ci + min remaining.length (currentRun.text.length - ci))
              (acc ++ [⟨(currentRun.text.drop ci).take (min remaining.length (currentRun.text.length - ci)),
                currentRun.properties, currentRun.paragraphIndex, acc.length, currentRun.originalRPr⟩])

/-- The DELETE-segment while loop of `mapTextToRuns`: advance the cursor past
`remaining` characters of the original runs without emitting anything. -/
def delLoopF {P R : Type} :
    Nat → List (Run P R) → List Char → Nat → Nat → Nat × Nat
  | 0, _, _, idx, ci => (idx, ci)
  | fuel + 1, runs, remaining, idx, ci =>
    if remaining = [] then (idx, ci)
    else
      match runs.get? idx with
      | none => (idx, ci)
      | some currentRun =>
        if currentRun.text.length ≤ ci + min remaining.length (currentRun.text.length - ci) then
          delLoopF fuel runs (remaining.drop (min remaining.length (currentRun.text.length - ci)))
            (idx + 1) 0
        else
          delLoopF fuel runs (remaining.drop (min remaining.length (currentRun.text.length - ci)))
            idx (ci + min remaining.length (currentRun.text.length - ci))

/-- One step of the `diffs.forEach` of `mapTextToRuns`.  The state is the
accumulated output runs together with the original-run cursor
(`currentRunIdx`, `currentRunCharIdx`).  For an INSERT segment the source of
the inherited formatting is the run at the cursor, or the last run once the
cursor has moved past the end; the `none` case is unreachable because the
function checks `runs.length === 0` at entry. -/
def mttrStep {P R : Type} (runs : List (Run P R))
    (state : List (Run P R) × Nat × Nat) (d : DiffOp × List Char) :
    List (Run P R) × Nat × Nat :=
  match state, d with
  | (acc, idx, ci), (DiffOp.equal, text) =>
    eqLoopF (text.length + runs.length) runs text idx ci acc
  | (acc, idx, ci), (DiffOp.insert, text) =>
    (match (runs.get? idx).or (runs.get? (runs.length - 1)) with
     | some sourceRun =>
       (acc ++ [⟨text, sourceRun.properties, sourceRun.paragraphIndex, acc.length,
         sourceRun.originalRPr⟩], idx, ci)
     | none => (acc, idx, ci))
  | (acc, idx, ci), (DiffOp.delete, text) =>
    (acc, delLoopF (text.length + runs.length) runs text idx ci)

/-- `mapTextToRuns` from src/background.js.  `diffs` is the edit script the
source obtains from `dmp.diff_main(originalText, newText)` (after semantic
cleanup); empty (falsy) texts and an empty run list short-circuit before the
diff is taken. -/
def mapTextToRuns {P R : Type} (diffs : List (DiffOp × List Char))
    (originalText newText : List Char) (runs : List (Run P R)) : List (Run P R) :=
  if runs.length = 0 then []
  else if originalText = [] ∨ newText = [] then runs
  else if originalText = newText then
    runs.map (fun run =>
      ⟨run.text, run.properties, run.paragraphIndex, run.runIndex, run.originalRPr⟩)
  else (diffs.foldl (mttrStep runs) ([], 0, 0)).1

/-- Claim C3: for a non-empty run list, remapping with a new text identical
to the original text yields runs whose `text`, `properties`,
`paragraphIndex` and `originalRPr` fields all coincide with those of the
corresponding original runs. -/
theorem mapTextToRuns_identity {P R : Type} (diffs : List (DiffOp × List Char))
    (originalText : List Char) (runs : List (Run P R)) (hne : runs ≠ []) :
    (mapTextToRuns diffs originalText originalText runs).map
        (fun r => (r.text, r.properties, r.paragraphIndex, r.originalRPr))
      = runs.map (fun r => (r.text, r.properties, r.paragraphIndex, r.originalRPr)) := by
  unfold mapTextToRuns
  rw [if_neg (by simpa using hne)]
  by_cases h0 : originalText = []
  · rw [if_pos (Or.inl h0)]
  · rw [if_neg (by tauto), if_pos rfl, List.map_map]
    rfl

/-- Witness for C3 at a concrete input. -/
theorem mapTextToRuns_identity_witness :
    ([⟨"hi".toList, 5, 0, 0, some 7⟩] : List (Run Nat Nat)) ≠ [] ∧
    (mapTextToRuns [] "hi".toList "hi".toList
        ([⟨"hi".toList, 5, 0, 0, some 7⟩] : List (Run Nat Nat))).map
        (fun r => (r.text, r.properties, r.paragraphIndex, r.originalRPr))
      = ([⟨"hi".toList, 5, 0, 0, some 7⟩] : List (Run Nat Nat)).map
        (fun r => (r.text, r.properties, r.paragraphIndex, r.originalRPr)) :=
  ⟨by decide, mapTextToRuns_identity [] "hi".toList _ (by decide)⟩

/-- Claim C10: at the remapper's public interface, an empty run list yields
an empty output, and an empty original or new text (with a non-empty run
list) returns the original run list unchanged. -/
theorem mapTextToRuns_empty_inputs {P R : Type} (diffs : List (DiffOp × List Char))
    (originalText newText : List Char) (runs : List (Run P R)) :
    mapTextToRuns diffs originalText newText ([] : List (Run P R)) = [] ∧
    (runs ≠ [] → originalText = [] ∨ newText = [] →
      mapTextToRuns diffs originalText newText runs = runs) := by
  constructor
  · rfl
  · intro hne hempty
    unfold mapTextToRuns
    rw [if_neg (by simpa using hne), if_pos hempty]

/-- Witness for C10 at a concrete input. -/
theorem mapTextToRuns_empty_inputs_witness :
    ([⟨"a".toList, 1, 0, 0, none⟩] : List (Run Nat Nat)) ≠ [] ∧
    mapTextToRuns [(DiffOp.insert, "x".toList)] [] "x".toList
        ([⟨"a".toList, 1, 0, 0, none⟩] : List (Run Nat Nat))
      = [⟨"a".toList, 1, 0, 0, none⟩] ∧
    mapTextToRuns [(DiffOp.insert, "x".toList)] [] "x".toList
        ([] : List (Run Nat Nat)) = [] :=
  ⟨by decide, (mapTextToRuns_empty_inputs [(DiffOp.insert, "x".toList)] [] "x".toList
      ([⟨"a".toList, 1, 0, 0, none⟩] : List (Run Nat Nat))).2 (by decide) (Or.inl rfl),
    (mapTextToRuns_empty_inputs [(DiffOp.insert, "x".toList)] [] "x".toList
      ([⟨"a".toList, 1, 0, 0, none⟩] : List (Run Nat Nat))).1⟩

/-! ### Text accounting for the remapper cursor -/

theorem concatTexts_cons {P R : Type} (r : Run P R) (l : List (Run P R)) :
    concatTexts (r :: l) = r.text ++ concatTexts l := by
  simp [concatTexts]

theorem concatTexts_append {P R : Type} (a b : List (Run P R)) :
    concatTexts (a ++ b) = concatTexts a ++ concatTexts b := by
  simp [concatTexts]

theorem concatTexts_push {P R : Type} (a : List (Run P R)) (r : Run P R) :
    concatTexts (a ++ [r]) = concatTexts a ++ r.text := by
  rw [concatTexts_append, concatTexts_cons]
  simp [concatTexts]

/-- The original text still unconsumed at cursor (`idx`, `ci`). -/
def restText {P R : Type} (runs : List (Run P R)) (idx ci : Nat) : List Char :=
  (concatTexts (runs.drop idx)).drop ci

/-- Cursor sanity: the offset does not exceed the current run's length. -/
def cursorInv {P R : Type} (runs : List (Run P R)) (idx ci : Nat) : Prop :=
  ∀ r, runs.get? idx = some r → ci ≤ r.text.length

theorem restText_cons {P R : Type} (runs : List (Run P R)) (idx ci : Nat) (r : Run P R)
    (hr : runs.get? idx = some r) (hci : ci ≤ r.text.length) :
    restText runs idx ci = r.text.drop ci ++ concatTexts (runs.drop (idx + 1)) := by
  rcases List.getElem?_eq_some_iff.mp ((List.get?_eq_getElem? runs idx) ▸ hr) with ⟨hlt, hget⟩
  unfold restText
  rw [List.drop_eq_getElem_cons hlt, hget, concatTexts_cons,
    List.drop_append_of_le_length hci]

theorem restText_none {P R : Type} (runs : List (Run P R)) (idx ci : Nat)
    (hr : runs.get? idx = none) : restText runs idx ci = [] := by
  have hlen : runs.length ≤ idx := List.get?_eq_none.mp hr
  unfold restText
  rw [List.drop_eq_nil_of_le hlen]
  simp [concatTexts]

theorem restText_drop {P R : Type} (runs : List (Run P R)) (idx ci t : Nat) :
    restText runs idx (ci + t) = (restText runs idx ci).drop t := by
  unfold restText
  rw [List.drop_drop]

/-- Correctness of the EQUAL-segment loop: given enough fuel, a sane cursor,
and `remaining` available as a prefix of the unconsumed original text, the
loop emits exactly `remaining` (appended to the accumulator's text) and
advances the cursor past it. -/
theorem eqLoopF_spec {P R : Type} (fuel : Nat) :
    ∀ (runs : List (Run P R)) (remaining : List Char) (idx ci : Nat)
      (acc : List (Run P R)) (σ : List Char),
      remaining.length + (runs.length - idx) ≤ fuel →
      cursorInv runs idx ci →
      restText runs idx ci = remaining ++ σ →
      ∃ acc₂ idx' ci',
        eqLoopF fuel runs remaining idx ci acc = (acc₂, idx', ci') ∧
        concatTexts acc₂ = concatTexts acc ++ remaining ∧
        cursorInv runs idx' ci' ∧
        restText runs idx' ci' = σ := by
  induction fuel with
  | zero =>
    intro runs remaining idx ci acc σ hfuel hinv hrest
    have hrem : remaining = [] := by
      cases remaining with
      | nil => rfl
      | cons c cs => simp at hfuel
    subst hrem
    exact ⟨acc, idx, ci, rfl, by simp, hinv, by simpa using hrest⟩
  | succ fuel ih =>
    intro runs remaining idx ci acc σ hfuel hinv hrest
    by_cases hrem : remaining = []
    · subst hrem
      refine ⟨acc, idx, ci, ?_, by simp, hinv, by simpa using hrest⟩
      simp [eqLoopF]
    · cases hr : runs.get? idx with
      | none =>
        exfalso
        rw [restText_none runs idx ci hr] at hrest
        exact hrem (List.append_eq_nil.mp hrest.symm).1
      | some r =>
        have hci : ci ≤ r.text.length := hinv r hr
        have hidx : idx < runs.length := by
          rcases List.getElem?_eq_some_iff.mp ((List.get?_eq_getElem? runs idx) ▸ hr)
            with ⟨hlt, _⟩
          exact hlt
        have hREST : r.text.drop ci ++ concatTexts (runs.drop (idx + 1)) = remaining ++ σ :=
          (restText_cons runs idx ci r hr hci).symm.trans hrest
        have hrem1 : 1 ≤ remaining.length := by
          cases remaining with
          | nil => exact absurd rfl hrem
          | cons c cs => simp
        have hTle : min remaining.length (r.text.length - ci) ≤ remaining.length :=
          Nat.min_le_left _ _
        have hTle2 : min remaining.length (r.text.length - ci) ≤ r.text.length - ci :=
          Nat.min_le_right _ _
        have hTcases : min remaining.length (r.text.length - ci) = remaining.length ∨
            min remaining.length (r.text.length - ci) = r.text.length - ci := by
          rcases Nat.le_total remaining.length (r.text.length - ci) with h | h
          · exact Or.inl (Nat.min_eq_left h)
          · exact Or.inr (Nat.min_eq_right h)
        simp only [eqLoopF, if_neg hrem, hr]
        by_cases hA : ci = 0 ∧ min remaining.length (r.text.length - ci) = r.text.length
        · rw [if_pos hA]
          obtain ⟨hci0, hTlen⟩ := hA
          subst hci0
          have hlenle : r.text.length ≤ remaining.length := by
            rcases hTcases with h | h <;> omega
          have hREST0 : r.text ++ concatTexts (runs.drop (idx + 1)) = remaining ++ σ := by
            simpa using hREST
          have h2 : r.text ++ concatTexts (runs.drop (idx + 1)) =
              remaining.take r.text.length ++ (remaining.drop r.text.length ++ σ) := by
            rw [← List.append_assoc, List.take_append_drop]
            exact hREST0
          have h3 := List.append_inj h2 (by rw [List.length_take]; omega)
          obtain ⟨htake, hdropσ⟩ := h3
          have hcall := ih runs (remaining.drop (min remaining.length (r.text.length - 0)))
            (idx + 1) 0
            (acc ++ [⟨r.text, r.properties, r.paragraphIndex, acc.length, r.originalRPr⟩]) σ
            (by
              simp only [List.length_drop]
              rcases hTcases with h | h <;> omega)
            (by intro r' _; exact Nat.zero_le _)
            (by
              simp only [Nat.sub_zero] at hTlen ⊢
              rw [hTlen]
              unfold restText
              rw [List.drop_zero]
              exact hdropσ)
          rcases hcall with ⟨acc₂, idx', ci', heq, hconcat, hinv', hrest'⟩
          refine ⟨acc₂, idx', ci', heq, ?_, hinv', hrest'⟩
          rw [hconcat, concatTexts_push]
          simp only [Nat.sub_zero] at hTlen ⊢
          rw [hTlen, List.append_assoc]
          conv_rhs => rw [← List.take_append_drop r.text.length remaining, ← htake]
        · rw [if_neg hA]
          by_cases hB : r.text.length ≤ ci + min remaining.length (r.text.length - ci)
          · rw [if_pos hB]
            have hT : min remaining.length (r.text.length - ci) = r.text.length - ci := by
              rcases hTcases with h | h <;> omega
            have hTle3 : r.text.length - ci ≤ remaining.length := by
              rcases hTcases with h | h <;> omega
            have hdlen : (r.text.drop ci).length = r.text.length - ci := by
              simp
            have htakeall : (r.text.drop ci).take (min remaining.length (r.text.length - ci))
                = r.text.drop ci := by
              rw [hT]
              exact List.take_of_length_le (le_of_eq hdlen)
            have h2 : r.text.drop ci ++ concatTexts (runs.drop (idx + 1)) =
                remaining.take (r.text.length - ci) ++
                  (remaining.drop (r.text.length - ci) ++ σ) := by
              rw [← List.append_assoc, List.take_append_drop]
              exact hREST
            have h3 := List.append_inj h2 (by rw [List.length_take]; omega)
            obtain ⟨htake, hdropσ⟩ := h3
            have hcall := ih runs (remaining.drop (min remaining.length (r.text.length - ci)))
              (idx + 1) 0
              (acc ++ [⟨(r.text.drop ci).take (min remaining.length (r.text.length - ci)),
                r.properties, r.paragraphIndex, acc.length, r.originalRPr⟩]) σ
              (by
                simp only [List.length_drop]
                rcases hTcases with h | h <;> omega)
              (by intro r' _; exact Nat.zero_le _)
              (by
                rw [hT]
                unfold restText
                rw [List.drop_zero]
                exact hdropσ)
            rcases hcall with ⟨acc₂, idx', ci', heq, hconcat, hinv', hrest'⟩
            refine ⟨acc₂, idx', ci', heq, ?_, hinv', hrest'⟩
            rw [hconcat, concatTexts_push]
            rw [htakeall, htake, hT, List.append_assoc, List.take_append_drop]
          · rw [if_neg hB]
            have hT : min remaining.length (r.text.length - ci) = remaining.length := by
              rcases hTcases with h | h <;> omega
            have hlt : remaining.length < r.text.length - ci := by
              rcases hTcases with h | h <;> omega
            have hdlen : (r.text.drop ci).length = r.text.length - ci := by
              simp
            have h2 : (r.text.drop ci).take remaining.length ++
                ((r.text.drop ci).drop remaining.length ++ concatTexts (runs.drop (idx + 1)))
                = remaining ++ σ := by
              rw [← List.append_assoc, List.take_append_drop]
              exact hREST
            have h3 := List.append_inj h2 (by rw [List.length_take]; omega)
            obtain ⟨htake, hσ⟩ := h3
            have hcall := ih runs (remaining.drop (min remaining.length (r.text.length - ci)))
              idx (ci + min remaining.length (r.text.length - ci))
              (acc ++ [⟨(r.text.drop ci).take (min remaining.length (r.text.length - ci)),
                r.properties, r.paragraphIndex, acc.length, r.originalRPr⟩]) σ
              (by
                simp only [List.length_drop]
                omega)
              (by
                intro r' hr'
                rw [hr] at hr'
                cases hr'
                omega)
              (by
                rw [hT, restText_drop, hrest, List.drop_left]
                simp)
            rcases hcall with ⟨acc₂, idx', ci', heq, hconcat, hinv', hrest'⟩
            refine ⟨acc₂, idx', ci', heq, ?_, hinv', hrest'⟩
            rw [hconcat, concatTexts_push]
            rw [hT, htake]
            have hnil : remaining.drop remaining.length = [] := by simp
            rw [hnil, List.append_nil]

/-- Correctness of the DELETE-segment loop: the cursor advances past
`remaining` without emitting anything. -/
theorem delLoopF_spec {P R : Type} (fuel : Nat) :
    ∀ (runs : List (Run P R)) (remaining : List Char) (idx ci : Nat) (σ : List Char),
      remaining.length + (runs.length - idx) ≤ fuel →
      cursorInv runs idx ci →
      restText runs idx ci = remaining ++ σ →
      ∃ idx' ci',
        delLoopF fuel runs remaining idx ci = (idx', ci') ∧
        cursorInv runs idx' ci' ∧
        restText runs idx' ci' = σ := by
  induction fuel with
  | zero =>
    intro runs remaining idx ci σ hfuel hinv hrest
    have hrem : remaining = [] := by
      cases remaining with
      | nil => rfl
      | cons c cs => simp at hfuel
    subst hrem
    exact ⟨idx, ci, rfl, hinv, by simpa using hrest⟩
  | succ fuel ih =>
    intro runs remaining idx ci σ hfuel hinv hrest
    by_cases hrem : remaining = []
    · subst hrem
      exact ⟨idx, ci, by simp [delLoopF], hinv, by simpa using hrest⟩
    · cases hr : runs.get? idx with
      | none =>
        exfalso
        rw [restText_none runs idx ci hr] at hrest
        exact hrem (List.append_eq_nil.mp hrest.symm).1
      | some r =>
        have hci : ci ≤ r.text.length := hinv r hr
        have hidx : idx < runs.length := by
          rcases List.getElem?_eq_some_iff.mp ((List.get?_eq_getElem? runs idx) ▸ hr)
            with ⟨hlt, _⟩
          exact hlt
        have hREST : r.text.drop ci ++ concatTexts (runs.drop (idx + 1)) = remaining ++ σ :=
          (restText_cons runs idx ci r hr hci).symm.trans hrest
        have hrem1 : 1 ≤ remaining.length := by
          cases remaining with
          | nil => exact absurd rfl hrem
          | cons c cs => simp
        have hTcases : min remaining.length (r.text.length - ci) = remaining.length ∨
            min remaining.length (r.text.length - ci) = r.text.length - ci := by
          rcases Nat.le_total remaining.length (r.text.length - ci) with h | h
          · exact Or.inl (Nat.min_eq_left h)
          · exact Or.inr (Nat.min_eq_right h)
        simp only [delLoopF, if_neg hrem, hr]
        by_cases hB : r.text.length ≤ ci + min remaining.length (r.text.length - ci)
        · rw [if_pos hB]
          have hT : min remaining.length (r.text.length - ci) = r.text.length - ci := by
            rcases hTcases with h | h <;> omega
          have hTle3 : r.text.length - ci ≤ remaining.length := by
            rcases hTcases with h | h <;> omega
          have h2 : r.text.drop ci ++ concatTexts (runs.drop (idx + 1)) =
              remaining.take (r.text.length - ci) ++
                (remaining.drop (r.text.length - ci) ++ σ) := by
            rw [← List.append_assoc, List.take_append_drop]
            exact hREST
          have h3 := List.append_inj h2 (by rw [List.length_take]; simp; omega)
          obtain ⟨htake, hdropσ⟩ := h3
          exact ih runs (remaining.drop (min remaining.length (r.text.length - ci)))
            (idx + 1) 0 σ
            (by
              simp only [List.length_drop]
              rcases hTcases with h | h <;> omega)
            (by intro r' _; exact Nat.zero_le _)
            (by
              rw [hT]
              unfold restText
              rw [List.drop_zero]
              exact hdropσ)
        · rw [if_neg hB]
          have hT : min remaining.length (r.text.length - ci) = remaining.length := by
            rcases hTcases with h | h <;> omega
          exact ih runs (remaining.drop (min remaining.length (r.text.length - ci)))
            idx (ci + min remaining.length (r.text.length - ci)) σ
            (by
              simp only [List.length_drop]
              omega)
            (by
              intro r' hr'
              rw [hr] at hr'
              cases hr'
              rcases hTcases with h | h <;> omega)
            (by
              rw [hT, restText_drop, hrest, List.drop_left]
              simp)

/-- The remapper fold: starting from a sane cursor whose unconsumed original
text is exactly what the edit script still consumes, the concatenated text of
the produced runs extends the accumulator by exactly the text the script
produces. -/
theorem mttr_fold {P R : Type} (runs : List (Run P R)) (hne : runs ≠ []) :
    ∀ (diffs : List (DiffOp × List Char)) (acc : List (Run P R)) (idx ci : Nat),
      cursorInv runs idx ci →
      restText runs idx ci = recoverOriginal diffs →
      concatTexts ((diffs.foldl (mttrStep runs) (acc, idx, ci)).1)
        = concatTexts acc ++ recoverNew diffs := by
  intro diffs
  induction diffs with
  | nil =>
    intro acc idx ci _ _
    simp [recoverNew]
  | cons d rest ih =>
    intro acc idx ci hinv hrest
    obtain ⟨op, text⟩ := d
    cases op with
    | equal =>
      have hrest' : restText runs idx ci = text ++ recoverOriginal rest := by
        simpa [recoverOriginal] using hrest
      rcases eqLoopF_spec (text.length + runs.length) runs text idx ci acc
          (recoverOriginal rest) (by omega) hinv hrest'
        with ⟨acc₂, idx', ci', heq, hconcat, hinv', hrest₂⟩
      rw [List.foldl_cons]
      rw [show mttrStep runs (acc, idx, ci) (DiffOp.equal, text)
        = eqLoopF (text.length + runs.length) runs text idx ci acc from rfl]
      rw [heq, ih acc₂ idx' ci' hinv' hrest₂, hconcat]
      simp [recoverNew, List.append_assoc]
    | insert =>
      have hsr : ∃ sr, (runs.get? idx).or (runs.get? (runs.length - 1)) = some sr := by
        cases hg : runs.get? idx with
        | some r => exact ⟨r, rfl⟩
        | none =>
          have hlen : 1 ≤ runs.length := by
            cases runs with
            | nil => exact absurd rfl hne
            | cons a l => simp
          have : runs.length - 1 < runs.length := by omega
          cases hg2 : runs.get? (runs.length - 1) with
          | some r => exact ⟨r, rfl⟩
          | none =>
            exfalso
            have := List.get?_eq_none.mp hg2
            omega
      rcases hsr with ⟨sr, hsr⟩
      have hrest' : restText runs idx ci = recoverOriginal rest := by
        simpa [recoverOriginal] using hrest
      rw [List.foldl_cons]
      rw [show mttrStep runs (acc, idx, ci) (DiffOp.insert, text)
        = (match (runs.get? idx).or (runs.get? (runs.length - 1)) with
           | some sourceRun =>
             (acc ++ [⟨text, sourceRun.properties, sourceRun.paragraphIndex, acc.length,
               sourceRun.originalRPr⟩], idx, ci)
           | none => (acc, idx, ci)) from rfl]
      rw [hsr]
      rw [show (match some sr with
           | some sourceRun =>
             (acc ++ [(⟨text, sourceRun.properties, sourceRun.paragraphIndex, acc.length,
               sourceRun.originalRPr⟩ : Run P R)], idx, ci)
           | none => (acc, idx, ci))
         = (acc ++ [⟨text, sr.properties, sr.paragraphIndex, acc.length, sr.originalRPr⟩],
            idx, ci) from rfl]
      rw [ih (acc ++ [(⟨text, sr.properties, sr.paragraphIndex, acc.length,
          sr.originalRPr⟩ : Run P R)]) idx ci hinv hrest', concatTexts_push]
      simp [recoverNew, List.append_assoc]
    | delete =>
      have hrest' : restText runs idx ci = text ++ recoverOriginal rest := by
        simpa [recoverOriginal] using hrest
      rcases delLoopF_spec (text.length + runs.length) runs text idx ci
          (recoverOriginal rest) (by omega) hinv hrest'
        with ⟨idx', ci', heq, hinv', hrest₂⟩
      rw [List.foldl_cons]
      rw [show mttrStep runs (acc, idx, ci) (DiffOp.delete, text)
        = (acc, delLoopF (text.length + runs.length) runs text idx ci) from rfl]
      rw [heq, ih acc idx' ci' hinv' hrest₂]
      simp [recoverNew]

/-- Claim C2 (amended): for a non-empty run list whose concatenated text is
the (non-empty) original plain text, a non-empty new plain text, and an edit
script satisfying the diff contract between the two texts, the concatenation
in order of the `text` fields of the runs returned by `mapTextToRuns` equals
the new plain text exactly. -/
theorem mapTextToRuns_concat {P R : Type} (diffs : List (DiffOp × List Char))
    (originalText newText : List Char) (runs : List (Run P R))
    (hne : runs ≠ []) (ho : originalText ≠ []) (hn : newText ≠ [])
    (hconcat : concatTexts runs = originalText)
    (hv : validDiff originalText newText diffs) :
    concatTexts (mapTextToRuns diffs originalText newText runs) = newText := by
  obtain ⟨hvo, hvn⟩ := hv
  unfold mapTextToRuns
  rw [if_neg (by simpa using hne), if_neg (by tauto)]
  by_cases hid : originalText = newText
  · rw [if_pos hid]
    have hcopy : concatTexts (runs.map (fun run =>
        (⟨run.text, run.properties, run.paragraphIndex, run.runIndex,
          run.originalRPr⟩ : Run P R))) = concatTexts runs := by
      unfold concatTexts
      rw [List.map_map]
      rfl
    rw [hcopy, hconcat, hid]
  · rw [if_neg hid]
    have h0 := mttr_fold runs hne diffs [] 0 0 (fun r _ => Nat.zero_le _)
      (by
        unfold restText
        rw [List.drop_zero, List.drop_zero, hconcat, ← hvo])
    rw [h0, hvn]
    simp [concatTexts]

/-- Counterexample to C2 as stated: a non-empty run list satisfying the
run-text invariant, original text `"a"`, new text `""` (with the valid
single-DELETE edit script).  `mapTextToRuns` returns the original run list
(empty-text guard), whose concatenation is `"a"`, not the new text `""`. -/
theorem mapTextToRuns_concat_counterexample :
    validDiff "a".toList [] [(DiffOp.delete, "a".toList)] ∧
    concatTexts ([⟨"a".toList, 0, 0, 0, none⟩] : List (Run Nat Nat)) = "a".toList ∧
    mapTextToRuns [(DiffOp.delete, "a".toList)] "a".toList []
        ([⟨"a".toList, 0, 0, 0, none⟩] : List (Run Nat Nat))
      = [⟨"a".toList, 0, 0, 0, none⟩] ∧
    concatTexts (mapTextToRuns [(DiffOp.delete, "a".toList)] "a".toList []
        ([⟨"a".toList, 0, 0, 0, none⟩] : List (Run Nat Nat))) ≠ ([] : List Char) :=
  ⟨⟨rfl, rfl⟩, rfl, rfl, by decide⟩

/-- Witness for the amended C2 at a concrete input: two runs `"ab"`, `"cd"`,
original `"abcd"`, new `"abXd"`, script
`[EQUAL "ab", DELETE "c", INSERT "X", EQUAL "d"]`. -/
theorem mapTextToRuns_concat_witness :
    concatTexts ([⟨"ab".toList, 1, 0, 0, some 3⟩, ⟨"cd".toList, 2, 0, 1, none⟩] :
        List (Run Nat Nat)) = "abcd".toList ∧
    validDiff "abcd".toList "abXd".toList
      [(DiffOp.equal, "ab".toList), (DiffOp.delete, "c".toList),
       (DiffOp.insert, "X".toList), (DiffOp.equal, "d".toList)] ∧
    concatTexts (mapTextToRuns
        [(DiffOp.equal, "ab".toList), (DiffOp.delete, "c".toList),
         (DiffOp.insert, "X".toList), (DiffOp.equal, "d".toList)]
        "abcd".toList "abXd".toList
        ([⟨"ab".toList, 1, 0, 0, some 3⟩, ⟨"cd".toList, 2, 0, 1, none⟩] :
          List (Run Nat Nat))) = "abXd".toList :=
  ⟨rfl, ⟨rfl, rfl⟩,
    mapTextToRuns_concat
      [(DiffOp.equal, "ab".toList), (DiffOp.delete, "c".toList),
       (DiffOp.insert, "X".toList), (DiffOp.equal, "d".toList)]
      "abcd".toList "abXd".toList
      ([⟨"ab".toList, 1, 0, 0, some 3⟩, ⟨"cd".toList, 2, 0, 1, none⟩] :
        List (Run Nat Nat))
      (by decide) (by decide) (by decide) rfl ⟨rfl, rfl⟩⟩

/-! ## Job parsing (src/scraper/jobParser.js)

`parseJobWithLLM` builds a prompt, performs the network call through an
injected caller, and post-processes the response text; the network call is
external, so the embedding takes the response text as input and covers the
response processing (markdown-fence stripping, JSON extraction, field
defaulting) together with `safeJsonParse`.  The platform `JSON.parse` is
modelled from the spec as an arbitrary function into JavaScript values
(`none` for a parse exception, mirroring `safeJsonParse`). -/

/-- A JavaScript/JSON value. -/
inductive JsonValue where
  | null : JsonValue
  | bool : Bool → JsonValue
  | num : Int → JsonValue
  | str : List Char → JsonValue
  | arr : List JsonValue → JsonValue
  | obj : List (List Char × JsonValue) → JsonValue

/-- JavaScript truthiness of a value. -/
def jsTruthy : JsonValue → Bool
  | .null => false
  | .bool b => b
  | .num n => n ≠ 0
  | .str s => s ≠ []
  | .arr _ => true
  | .obj _ => true

/-- JavaScript `typeof v === 'object'` (`null` and arrays included). -/
def isObjType : JsonValue → Bool
  | .null => true
  | .arr _ => true
  | .obj _ => true
  | _ => false

/-- Property access `v[name]` on a parsed JSON value: on an object the last
binding of the key wins (mirroring how `JSON.parse` resolves duplicate keys);
on anything else the named property is `undefined` (`none`). -/
def jsGetField : JsonValue → List Char → Option JsonValue
  | .obj fields, name => (fields.reverse.find? (fun kv => kv.1 = name)).map (fun kv => kv.2)
  | _, _ => none

/-- JavaScript `x || ''` on a possibly-`undefined` value. -/
def jsOrEmptyStr : Option JsonValue → JsonValue
  | none => .str []
  | some v => if jsTruthy v then v else .str []

/-- The backtick character (0x60). -/
def btick : Char := Char.ofNat 0x60

/-- Does the text, after leading whitespace, start with a triple backtick? -/
def startsFence (l : List Char) : Bool :=
  match l.dropWhile isJsWs with
  | a :: b :: c :: _ => a = btick && b = btick && c = btick
  | _ => false

/-- `startsWithList needle hay`: does `hay` begin with `needle`? -/
def startsWithList : List Char → List Char → Bool
  | [], _ => true
  | _ :: _, [] => false
  | n :: ns, h :: hs => n = h && startsWithList ns hs

/-- The largest index `j` with `l[j] = '\x7d'` such that the closing fence
follows (whitespace then three backticks), i.e. the backtracking of the
greedy `[\s\S]*` inside the fenced-block regex. -/
def lastCloseIdx (l : List Char) : Option Nat :=
  ((List.range l.length).filter
    (fun j => (l.get? j == some '}') && startsFence (l.drop (j + 1)))).getLast?

/-- Match the part of the fenced-block regex following the opening fence and
optional `json` tag: `\s*(\{[\s\S]*\})\s*` followed by the closing fence;
returns the captured `{...}` text. -/
def matchFenceTail (s0 : List Char) : Option (List Char) :=
  let s1 := s0.dropWhile isJsWs
  match s1 with
  | '{' :: _ =>
    match lastCloseIdx s1 with
    | some j => some (s1.take (j + 1))
    | none => none
  | _ => none

/-- Try to match the fenced-block regex with the match starting exactly here:
three backticks, then (preferring to consume it) an optional `json` tag, then
`matchFenceTail`. -/
def matchFencedAt (s : List Char) : Option (List Char) :=
  match s with
  | a :: b :: c :: rest =>
    if a = btick ∧ b = btick ∧ c = btick then
      match (if rest.take 4 = "json".toList then matchFenceTail (rest.drop 4) else none) with
      | some cap => some cap
      | none => matchFenceTail rest
    else none
  | _ => none

/-- Leftmost match of the fenced-block regex. -/
def fencedSearch : List Char → Option (List Char)
  | [] => none
  | c :: rest =>
    match matchFencedAt (c :: rest) with
    | some cap => some cap
    | none => fencedSearch rest

/-- The brace-fallback regex `\{[\s\S]*\}`: from the first `'\x7b'` to the
last `'\x7d'`, when the latter comes after the former. -/
def braceSearch (s : List Char) : Option (List Char) :=
  match s.findIdx? (fun c => c = '{'),
      ((List.range s.length).filter (fun j => s.get? j == some '}')).getLast? with
  | some i, some j => if i < j then some ((s.drop i).take (j - i + 1)) else none
  | _, _ => none

/-- The JSON-text extraction of `parseJobWithLLM`: trim the response, prefer
a fenced code block's `{...}` capture, else the first-to-last brace
substring, else the trimmed response itself. -/
def extractJsonText (resp : List Char) : List Char :=
  let t := trimWs resp
  match fencedSearch t with
  | some cap => cap
  | none =>
    match braceSearch t with
    | some sub => sub
    | none => t

/-- The structured job fields returned by the parsers. -/
structure JobFields where
  jobTitle : JsonValue
  companyName : JsonValue
  description : JsonValue
  requirements : JsonValue
  additionalContext : JsonValue

/-- The response-processing core of `parseJobWithLLM` (src/scraper/jobParser.js
lines 98-128): extract the JSON text, parse it with `safeJsonParse` (the
platform `JSON.parse` wrapped to return `none` on exception — passed in as a
function, modelled from the spec), accept any truthy value of object type
(per JavaScript `typeof`), default each absent/falsy field to the empty
string, and otherwise throw. -/
def parseJobWithLLM (safeJsonParse : List Char → Option JsonValue)
    (responseText : List Char) : Except (List Char) JobFields :=
  let jsonText := extractJsonText responseText
  match safeJsonParse jsonText with
  | some parsed =>
    if jsTruthy parsed && isObjType parsed then
      .ok ⟨jsOrEmptyStr (jsGetField parsed "jobTitle".toList),
        jsOrEmptyStr (jsGetField parsed "companyName".toList),
        jsOrEmptyStr (jsGetField parsed "description".toList),
        jsOrEmptyStr (jsGetField parsed "requirements".toList),
        jsOrEmptyStr (jsGetField parsed "additionalContext".toList)⟩
    else .error "Failed to parse LLM response as JSON".toList
  | none => .error "Failed to parse LLM response as JSON".toList

/-- Claim C4: `parseJobWithLLM` either throws — exactly when the extracted
response text does not parse (`safeJsonParse` returns `none`) or parses to a
value that is not a truthy object — or returns an object in which every one
of the five fields is the corresponding field of the parsed object with any
absent (or falsy) field defaulting to the empty string; it never returns
partial data on parse failure.  (`jsOrEmptyStr none = .str []` is the
empty-string default for an absent field.) -/
theorem parseJobWithLLM_spec (safeJsonParse : List Char → Option JsonValue)
    (responseText : List Char) :
    (parseJobWithLLM safeJsonParse responseText
        = Except.error "Failed to parse LLM response as JSON".toList ∧
      ∀ v, safeJsonParse (extractJsonText responseText) = some v →
        (jsTruthy v && isObjType v) = false) ∨
    (∃ v, safeJsonParse (extractJsonText responseText) = some v ∧
      (jsTruthy v && isObjType v) = true ∧
      parseJobWithLLM safeJsonParse responseText
        = Except.ok ⟨jsOrEmptyStr (jsGetField v "jobTitle".toList),
            jsOrEmptyStr (jsGetField v "companyName".toList),
            jsOrEmptyStr (jsGetField v "description".toList),
            jsOrEmptyStr (jsGetField v "requirements".toList),
            jsOrEmptyStr (jsGetField v "additionalContext".toList)⟩ ∧
      jsOrEmptyStr none = JsonValue.str []) := by
  simp only [parseJobWithLLM]
  cases hp : safeJsonParse (extractJsonText responseText) with
  | none =>
    left
    exact ⟨rfl, fun v hv => absurd hv (by simp)⟩
  | some v =>
    by_cases ht : (jsTruthy v && isObjType v) = true
    · right
      refine ⟨v, rfl, ht, ?_, rfl⟩
      simp [ht]
    · left
      rw [Bool.not_eq_true] at ht
      refine ⟨by simp [ht], ?_⟩
      intro v' hv'
      cases hv'
      exact ht

/-! ### Heuristic fallback parser (`fallbackParseJob`) -/

/-- `String.prototype.toLowerCase` (ASCII suffices for the fixed keyword
sets the classifier compares against). -/
def jsToLower (l : List Char) : List Char := l.map Char.toLower

/-- JavaScript `text.split('\n')` (keeps empty pieces). -/
def splitNl : List Char → List (List Char)
  | [] => [[]]
  | c :: rest =>
    if c = '\n' then [] :: splitNl rest
    else
      match splitNl rest with
      | p :: ps => (c :: p) :: ps
      | [] => [[c]]

/-- `rawText.split('\n').filter(line => line.trim().length > 0)`. -/
def linesOf (raw : List Char) : List (List Char) :=
  (splitNl raw).filter (fun l => trimWs l ≠ [])

/-- `needle` occurs as a contiguous substring of the second argument
(JavaScript `String.prototype.includes`). -/
def containsSub (needle : List Char) : List Char → Bool
  | [] => startsWithList needle []
  | c :: t => startsWithList needle (c :: t) || containsSub needle t

/-- The section state of the fallback parser's classifier. -/
inductive Sect where
  | description : Sect
  | requirements : Sect
  | additionalContext : Sect
deriving DecidableEq

def descriptionKeywords : List (List Char) :=
  ["description".toList, "overview".toList, "about".toList, "role".toList,
   "position".toList, "responsibilities".toList]

def requirementsKeywords : List (List Char) :=
  ["requirement".toList, "qualification".toList, "skill".toList, "experience".toList,
   "education".toList, "must have".toList, "should have".toList]

def contextKeywords : List (List Char) :=
  ["tech stack".toList, "technology".toList, "tools".toList, "location".toList,
   "salary".toList, "benefit".toList, "culture".toList, "team".toList,
   "remote".toList, "hybrid".toList]

/-- Stems of the requirements heading anchor regex
`^(requirements?|qualifications?|skills?|experience|education)` (the optional
trailing `s` is irrelevant to a boolean match). -/
def requirementsStems : List (List Char) :=
  ["requirement".toList, "qualification".toList, "skill".toList,
   "experience".toList, "education".toList]

/-- Stems of the context heading anchor regex
`^(location|salary|benefits?|tech stack|technologies?|tools?|culture|team)`. -/
def contextStems : List (List Char) :=
  ["location".toList, "salary".toList, "benefit".toList, "tech stack".toList,
   "technologie".toList, "tool".toList, "culture".toList, "team".toList]

/-- The per-line section transition of `fallbackParseJob` (the line is the
lowercased, trimmed line; note the heading line itself lands in the section
it switches to). -/
def classify (lineLc : List Char) (cur : Sect) : Sect :=
  if decide (lineLc.length < 100) &&
      (requirementsKeywords.any (fun kw => containsSub kw lineLc) ||
       requirementsStems.any (fun st => startsWithList st lineLc)) then
    Sect.requirements
  else if decide (lineLc.length < 100) &&
      (contextKeywords.any (fun kw => containsSub kw lineLc) ||
       contextStems.any (fun st => startsWithList st lineLc)) then
    Sect.additionalContext
  else if decide (lineLc.length < 100) &&
      descriptionKeywords.any (fun kw => containsSub kw lineLc) then
    Sect.description
  else cur

/-- The section-accumulation loop: each original line is appended to the
buffer of the (possibly just-switched) current section. -/
def runSections :
    List (List Char) → Sect → List (List Char) → List (List Char) → List (List Char) →
      List (List Char) × List (List Char) × List (List Char)
  | [], _, d, r, c => (d, r, c)
  | line :: rest, cur, d, r, c =>
    match classify (trimWs (jsToLower line)) cur with
    | Sect.description => runSections rest Sect.description (d ++ [line]) r c
    | Sect.requirements => runSections rest Sect.requirements d (r ++ [line]) c
    | Sect.additionalContext => runSections rest Sect.additionalContext d r (c ++ [line])

/-- Whitespace or colon: the class `[\s:]` of the tech-stack regex. -/
def wsColon (c : Char) : Bool := isJsWs c || c = ':'

/-- The tail `[\s:]+([^\n]+)` of the tech-stack regex, with the greedy
backtracking of `[\s:]+` made explicit: the separator takes `j` characters
(largest `j` first) and the capture is the maximal run of non-newline
characters that follows, which must be non-empty. -/
def matchTechTail (rest : List Char) : Option (List Char) :=
  match ((List.range ((rest.takeWhile wsColon).length + 1)).filter (fun j =>
      decide (1 ≤ j) &&
        (match rest.get? j with
         | some c => decide (c ≠ '\n')
         | none => false))).getLast? with
  | some j => some ((rest.drop j).takeWhile (fun c => c ≠ '\n'))
  | none => none

/-- Try the alternatives of `(?:tech stack|technologies?|tools?)` (in regex
order, greedy optional `s` first), case-insensitively, at this position. -/
def tryStems : List (List Char) → List Char → Option (List Char)
  | [], _ => none
  | st :: stems, s =>
    if startsWithList st (jsToLower s) then
      match matchTechTail (s.drop st.length) with
      | some cap => some cap
      | none => tryStems stems s
    else tryStems stems s

def matchTechAt (s : List Char) : Option (List Char) :=
  tryStems ["tech stack".toList, "technologies".toList, "technologie".toList,
    "tools".toList, "tool".toList] s

/-- Leftmost match of the case-insensitive tech-stack regex
`(?:tech stack|technologies?|tools?)[\s:]+([^\n]+)`. -/
def techSearch : List Char → Option (List Char)
  | [] => none
  | c :: rest =>
    match matchTechAt (c :: rest) with
    | some cap => some cap
    | none => techSearch rest

/-- The scraped page data consumed by the fallback parser (fields may be
absent). -/
structure ScrapedData where
  title : Option (List Char)
  company : Option (List Char)
deriving DecidableEq

/-- The structured result of the fallback parser: five plain string fields. -/
structure JobResult where
  jobTitle : List Char
  companyName : List Char
  description : List Char
  requirements : List Char
  additionalContext : List Char
deriving DecidableEq

/-- `fallbackParseJob` from src/scraper/jobParser.js.  A `none` scraped-data
argument models a `null`/`undefined` argument, on which the property access
`scrapedData.title` would throw (`none` result); an actual object never
throws.  The source's unused local `const text = rawText.toLowerCase()` has
no effect and is omitted.  `url` is unused by the source as well. -/
def fallbackParseJob (rawText url : List Char) (scrapedData : Option ScrapedData) :
    Option JobResult :=
  match scrapedData with
  | none => none
  | some sd =>
    let secs := runSections (linesOf rawText) Sect.description [] [] []
    let desc := jsOrElse (trimWs (List.intercalate ['\n'] secs.1))
      (rawText.take (min 3000 rawText.length))
    let req := trimWs (List.intercalate ['\n'] secs.2.1)
    let ctxParts :=
      (if secs.2.2.length > 0 then [List.intercalate ['\n'] secs.2.2] else []) ++
      (match techSearch rawText with
       | some cap => ["Tech Stack: ".toList ++ cap]
       | none => [])
    some ⟨sd.title.getD [], sd.company.getD [], desc, req,
      trimWs (List.intercalate "\n\n".toList ctxParts)⟩

/-- Claim C5: for arbitrary (possibly empty) input text and url and an
arbitrary scraped-data object (any non-null object value), `fallbackParseJob`
never throws: it returns a result with all five string fields defined,
`jobTitle` and `companyName` seeded from the scraped data with empty-string
defaults and the rest computed (possibly empty). -/
theorem fallbackParseJob_total (rawText url : List Char) (sdo : Option ScrapedData)
    (sd : ScrapedData) (h : sdo = some sd) :
    ∃ res, fallbackParseJob rawText url sdo = some res ∧
      res.jobTitle = sd.title.getD [] ∧ res.companyName = sd.company.getD [] := by
  subst h
  exact ⟨_, rfl, rfl, rfl⟩

/-- Witness for C5 at a concrete input (empty raw text included). -/
theorem fallbackParseJob_total_witness :
    (some (⟨some "T".toList, none⟩ : ScrapedData) = some ⟨some "T".toList, none⟩) ∧
    ∃ res, fallbackParseJob [] [] (some (⟨some "T".toList, none⟩ : ScrapedData))
        = some res ∧
      res.jobTitle = (some "T".toList).getD [] ∧
      res.companyName = (none : Option (List Char)).getD [] :=
  ⟨rfl, fallbackParseJob_total [] [] _ ⟨some "T".toList, none⟩ rfl⟩

/-- Claim C8: on the raw text
`"Requirements:\n- 5 years Python\n- SQL\n\nBenefits:\nRemote work"`,
the fallback parser puts the `- 5 years Python` and `- SQL` lines (together
with the `Requirements:` heading, which the classifier re-tags into the
section it opens) into `requirements`, and `Remote work` (with its
`Benefits:` heading) into `additionalContext`. -/
theorem fallbackParseJob_scenario :
    ∃ res, fallbackParseJob
        "Requirements:\n- 5 years Python\n- SQL\n\nBenefits:\nRemote work".toList
        [] (some ⟨none, none⟩) = some res ∧
      res.requirements = "Requirements:\n- 5 years Python\n- SQL".toList ∧
      res.additionalContext = "Benefits:\nRemote work".toList :=
  ⟨_, rfl, by decide, by decide⟩

/-! ## Keyword frequency extraction (src/app.js, `extractKeywords`) -/

/-- The fixed stop-word set of `extractKeywords`. -/
def stopwords : List (List Char) :=
  ["the".toList, "and".toList, "with".toList, "for".toList, "that".toList,
   "this".toList, "from".toList, "are".toList, "you".toList, "your".toList,
   "will".toList, "our".toList, "into".toList, "about".toList, "able".toList,
   "have".toList, "has".toList, "had".toList, "job".toList, "role".toList,
   "team".toList, "work".toList, "can".toList, "use".toList, "using".toList,
   "who".toList, "what".toList, "when".toList, "where".toList, "why".toList,
   "how".toList, "per".toList, "via".toList, "all".toList, "any".toList,
   "not".toList, "but".toList, "out".toList, "in".toList, "on".toList,
   "of".toList, "to".toList, "a".toList, "an".toList, "or".toList,
   "as".toList, "be".toList, "by".toList, "is".toList, "at".toList]

/-- First character class `[a-z]` of the token regex. -/
def isTokStart (c : Char) : Bool := decide ('a' ≤ c) && decide (c ≤ 'z')

/-- Continuation class `[a-z0-9+.#-]` of the token regex. -/
def isTokChar (c : Char) : Bool :=
  isTokStart c || (decide ('0' ≤ c) && decide (c ≤ '9')) ||
  c = '+' || c = '.' || c = '#' || c = '-'

/-- Fuel-driven matcher for the global token regex `[a-z][a-z0-9+.#-]{2,}`
(greedy, leftmost, non-overlapping) over the (already lowercased) text.
Every step consumes at least one character, so fuel equal to the input
length always suffices. -/
def tokenizeF : Nat → List Char → List (List Char)
  | 0, _ => []
  | _ + 1, [] => []
  | fuel + 1, c :: rest =>
    if isTokStart c && decide (2 ≤ (rest.takeWhile isTokChar).length) then
      (c :: rest.takeWhile isTokChar) ::
        tokenizeF fuel (rest.drop (rest.takeWhile isTokChar).length)
    else tokenizeF fuel rest

/-- All matches of the global token regex over the (already lowercased)
text. -/
def tokenize (l : List Char) : List (List Char) := tokenizeF l.length l

/-- A value read from or stored in the `counts` object. The object literal
`const counts = {}` inherits from `Object.prototype`, so a property read can
hit an inherited property before any own property exists. Tokens are
lowercase and start with a letter, and the only `Object.prototype` property
key of that shape is "constructor" (the others, such as "toString",
"valueOf", "hasOwnProperty", contain an uppercase letter or start with an
underscore, so no token can equal them). For the token "constructor" the
first read `counts[word]` yields the inherited `Object` function, which is
truthy, so `(counts[word] || 0) + 1` concatenates it with 1 into a
non-numeric string; later bumps keep concatenating onto that truthy string.
`corrupt` models such a non-numeric string (its exact text is
engine-dependent and never observable in the result); `num n` is an ordinary
numeric count. -/
inductive CountVal where
  | num : Nat → CountVal
  | corrupt : CountVal
deriving DecidableEq

/-- The token whose count is corrupted by prototype inheritance. -/
def constructorToken : List Char := "constructor".toList

/-- `(v || 0) + 1` on an own-property value: numbers are positive (truthy)
and increment; a corrupted string is truthy and concatenation keeps it a
non-numeric string. -/
def bumpVal : CountVal → CountVal
  | CountVal.num n => CountVal.num (n + 1)
  | CountVal.corrupt => CountVal.corrupt

/-- `counts[word] = (counts[word] || 0) + 1` on an insertion-ordered
association list of the own properties (JavaScript object with
non-integer-like string keys). When the key is absent, the read falls
through to the prototype chain: for "constructor" it finds the inherited
`Object` function and the stored own value is the corrupted string; for
every other token it finds `undefined`, so `undefined || 0` is `0` and the
stored value is the number 1. -/
def bumpCount : List (List Char × CountVal) → List Char → List (List Char × CountVal)
  | [], w =>
    if w = constructorToken then [(w, CountVal.corrupt)] else [(w, CountVal.num 1)]
  | (k, v) :: rest, w =>
    if k = w then (k, bumpVal v) :: rest else (k, v) :: bumpCount rest w

/-- The counting pass of `extractKeywords`: stop-words are skipped, other
words are counted; `Object.entries` later reads the own properties back in
insertion (= first-seen) order. -/
def countsList (tokens : List (List Char)) : List (List Char × CountVal) :=
  tokens.foldl (fun m w => if stopwords.contains w then m else bumpCount m w) []

/-- Comparator model for `sort((a, b) => b[1] - a[1])`, as the test "may the
earlier element y stay before the later element x", i.e. the comparator
value for the pair (y, x) is at most 0. Two numeric counts subtract
normally. If either operand is the corrupted non-numeric string, the
subtraction is NaN, and the ES SortCompare operation turns a NaN comparator
result into +0, so the pair counts as equal and the earlier element stays
first (ES2019 and later require the sort to be stable). -/
def cmpKeep : CountVal → CountVal → Bool
  | CountVal.num a, CountVal.num b => decide (b ≤ a)
  | _, _ => true

/-- Insert a later entry x behind every earlier entry it must not precede:
one step of a stable insertion sort driven by `cmpKeep`. On all-numeric
entries the comparator is consistent and this is the stable descending sort
the ES specification forces; a corrupted entry compares equal to everything,
so it simply keeps its insertion position relative to the entries it is
compared with. -/
def insertDesc (x : List Char × CountVal) :
    List (List Char × CountVal) → List (List Char × CountVal)
  | [] => [x]
  | y :: rest => if cmpKeep y.2 x.2 then y :: insertDesc x rest else x :: y :: rest

/-- Stable sort of the entries by `cmpKeep` (descending by count on numeric
entries). -/
def sortDesc (l : List (List Char × CountVal)) : List (List Char × CountVal) :=
  l.foldl (fun acc x => insertDesc x acc) []

/-- Numeric reading of a count value; only used for entries known to be
numeric. -/
def cnt : CountVal → Nat
  | CountVal.num n => n
  | CountVal.corrupt => 0

/-- Every entry of the list carries an ordinary numeric count. -/
def allNum (l : List (List Char × CountVal)) : Prop :=
  ∀ kv ∈ l, ∃ n, kv.2 = CountVal.num n

/-- The default `limit` of `extractKeywords`. -/
def defaultKeywordLimit : Nat := 14

/-- `extractKeywords` from src/app.js: lowercase, tokenize, drop stop-words,
count, sort by descending count (stable), take the first `limit` entries and
return their words. -/
def extractKeywords (text : List Char) (limit : Nat) : List (List Char) :=
  ((sortDesc (countsList (tokenize (jsToLower text)))).take limit).map (fun kv => kv.1)

theorem cnt_num (n : Nat) : cnt (CountVal.num n) = n := rfl

theorem insertDesc_mem {x y : List Char × CountVal} {l : List (List Char × CountVal)}
    (h : y ∈ insertDesc x l) : y = x ∨ y ∈ l := by
  induction l with
  | nil => simpa [insertDesc] using h
  | cons z rest ih =>
    simp only [insertDesc] at h
    by_cases hc : cmpKeep z.2 x.2 = true
    · rw [if_pos hc] at h
      rcases List.mem_cons.mp h with rfl | h2
      · exact Or.inr (List.mem_cons_self _ _)
      · rcases ih h2 with h3 | h3
        · exact Or.inl h3
        · exact Or.inr (List.mem_cons_of_mem _ h3)
    · rw [if_neg hc] at h
      rcases List.mem_cons.mp h with rfl | h2
      · exact Or.inl rfl
      · exact Or.inr h2

theorem sortDesc_mem {y : List Char × CountVal} {l : List (List Char × CountVal)}
    (h : y ∈ sortDesc l) : y ∈ l := by
  have hgen : ∀ (l acc : List (List Char × CountVal)),
      y ∈ l.foldl (fun acc x => insertDesc x acc) acc → y ∈ acc ∨ y ∈ l := by
    intro l
    induction l with
    | nil => intro acc h; exact Or.inl h
    | cons x rest ih =>
      intro acc h
      rcases ih (insertDesc x acc) h with h2 | h2
      · rcases insertDesc_mem h2 with rfl | h3
        · exact Or.inr (List.mem_cons_self _ _)
        · exact Or.inl h3
      · exact Or.inr (List.mem_cons_of_mem _ h2)
  rcases hgen l [] h with h2 | h2
  · exact absurd h2 (List.not_mem_nil y)
  · exact h2

theorem bumpCount_key {kv : List Char × CountVal} {m : List (List Char × CountVal)}
    {w : List Char} (h : kv ∈ bumpCount m w) : kv.1 = w ∨ kv ∈ m := by
  induction m with
  | nil =>
    simp only [bumpCount] at h
    by_cases hw : w = constructorToken
    · rw [if_pos hw, List.mem_singleton] at h
      exact Or.inl (by rw [h])
    · rw [if_neg hw, List.mem_singleton] at h
      exact Or.inl (by rw [h])
  | cons z rest ih =>
    obtain ⟨k, n⟩ := z
    simp only [bumpCount] at h
    by_cases hc : k = w
    · rw [if_pos hc] at h
      rcases List.mem_cons.mp h with rfl | h2
      · exact Or.inl hc
      · exact Or.inr (List.mem_cons_of_mem _ h2)
    · rw [if_neg hc] at h
      rcases List.mem_cons.mp h with rfl | h2
      · exact Or.inr (List.mem_cons_self _ _)
      · rcases ih h2 with h3 | h3
        · exact Or.inl h3
        · exact Or.inr (List.mem_cons_of_mem _ h3)

theorem countsList_no_stop {toks : List (List Char)} :
    ∀ kv ∈ countsList toks, stopwords.contains kv.1 = false := by
  have hgen : ∀ (toks : List (List Char)) (acc : List (List Char × CountVal)),
      (∀ kv ∈ acc, stopwords.contains kv.1 = false) →
      ∀ kv ∈ toks.foldl
        (fun m w => if stopwords.contains w then m else bumpCount m w) acc,
        stopwords.contains kv.1 = false := by
    intro toks
    induction toks with
    | nil => intro acc hacc kv h; exact hacc kv h
    | cons w rest ih =>
      intro acc hacc kv h
      simp only [List.foldl_cons] at h
      by_cases hw : stopwords.contains w
      · rw [if_pos hw] at h
        exact ih acc hacc kv h
      · rw [if_neg hw] at h
        refine ih (bumpCount acc w) ?_ kv h
        intro kv' h'
        rcases bumpCount_key h' with h2 | h2
        · rw [h2]
          simpa using hw
        · exact hacc kv' h2
  intro kv h
  exact hgen toks [] (by intro kv' h'; exact absurd h' (List.not_mem_nil kv')) kv h

theorem insertDesc_allNum {x : List Char × CountVal} {l : List (List Char × CountVal)}
    (hx : ∃ n, x.2 = CountVal.num n) (hl : allNum l) : allNum (insertDesc x l) := by
  intro kv hkv
  rcases insertDesc_mem hkv with rfl | h2
  · exact hx
  · exact hl kv h2

theorem bumpCount_allNum (w : List Char) (hw : ¬ w = constructorToken) :
    ∀ m : List (List Char × CountVal), allNum m → allNum (bumpCount m w) := by
  intro m
  induction m with
  | nil =>
    intro _ kv hkv
    simp only [bumpCount, if_neg hw, List.mem_singleton] at hkv
    exact ⟨1, by rw [hkv]⟩
  | cons z rest ih =>
    obtain ⟨k, v⟩ := z
    intro hm kv hkv
    simp only [bumpCount] at hkv
    by_cases hc : k = w
    · rw [if_pos hc] at hkv
      rcases List.mem_cons.mp hkv with rfl | h2
      · obtain ⟨n, hn⟩ := hm (k, v) (List.mem_cons_self _ _)
        refine ⟨n + 1, ?_⟩
        show bumpVal v = CountVal.num (n + 1)
        rw [show v = CountVal.num n from hn]
        rfl
      · exact hm kv (List.mem_cons_of_mem _ h2)
    · rw [if_neg hc] at hkv
      rcases List.mem_cons.mp hkv with rfl | h2
      · exact hm (k, v) (List.mem_cons_self _ _)
      · exact ih (fun kv' h' => hm kv' (List.mem_cons_of_mem _ h')) kv h2

theorem countsList_allNum {toks : List (List Char)}
    (hc : constructorToken ∉ toks) : allNum (countsList toks) := by
  have hgen : ∀ (toks : List (List Char)) (acc : List (List Char × CountVal)),
      constructorToken ∉ toks → allNum acc →
      allNum (toks.foldl
        (fun m w => if stopwords.contains w then m else bumpCount m w) acc) := by
    intro toks
    induction toks with
    | nil => intro acc _ hacc; exact hacc
    | cons w rest ih =>
      intro acc hni hacc
      simp only [List.foldl_cons]
      have hwn : ¬ w = constructorToken := by
        intro he
        exact hni (by rw [← he]; exact List.mem_cons_self _ _)
      have hrest : constructorToken ∉ rest := fun hr => hni (List.mem_cons_of_mem _ hr)
      by_cases hw : stopwords.contains w
      · rw [if_pos hw]
        exact ih acc hrest hacc
      · rw [if_neg hw]
        exact ih (bumpCount acc w) hrest (bumpCount_allNum w hwn acc hacc)
  exact hgen toks [] hc (fun kv h => absurd h (List.not_mem_nil kv))

theorem insertDesc_sorted (x : List Char × CountVal) (l : List (List Char × CountVal))
    (hx : ∃ n, x.2 = CountVal.num n) (hl : allNum l)
    (h : l.Pairwise (fun a b => cnt b.2 ≤ cnt a.2)) :
    (insertDesc x l).Pairwise (fun a b => cnt b.2 ≤ cnt a.2) := by
  induction l with
  | nil => simp [insertDesc]
  | cons y rest ih =>
    rcases List.pairwise_cons.mp h with ⟨hy, hrest⟩
    obtain ⟨a, hya⟩ := hl y (List.mem_cons_self _ _)
    obtain ⟨b, hxb⟩ := hx
    have hl' : allNum rest := fun kv hkv => hl kv (List.mem_cons_of_mem _ hkv)
    have hck : cmpKeep y.2 x.2 = decide (b ≤ a) := by rw [hya, hxb]; rfl
    simp only [insertDesc]
    by_cases hc : b ≤ a
    · rw [if_pos (by rw [hck]; exact decide_eq_true hc)]
      refine List.pairwise_cons.mpr ⟨?_, ih hl' hrest⟩
      intro z hz
      rcases insertDesc_mem hz with rfl | hz2
      · rw [hya, hxb, cnt_num, cnt_num]
        exact hc
      · exact hy z hz2
    · rw [if_neg (by rw [hck]; simp [hc])]
      refine List.pairwise_cons.mpr ⟨?_, h⟩
      intro z hz
      rcases List.mem_cons.mp hz with rfl | hz2
      · rw [hya, hxb, cnt_num, cnt_num]
        omega
      · have h1 := hy z hz2
        rw [hya, cnt_num] at h1
        rw [hxb, cnt_num]
        omega

theorem sortDesc_sorted (l : List (List Char × CountVal)) (hl : allNum l) :
    (sortDesc l).Pairwise (fun a b => cnt b.2 ≤ cnt a.2) := by
  have hgen : ∀ (l acc : List (List Char × CountVal)), allNum l → allNum acc →
      acc.Pairwise (fun a b => cnt b.2 ≤ cnt a.2) →
      (l.foldl (fun acc x => insertDesc x acc) acc).Pairwise
        (fun a b => cnt b.2 ≤ cnt a.2) := by
    intro l
    induction l with
    | nil => intro acc _ _ h; exact h
    | cons x rest ih =>
      intro acc hlx hacc h
      have hx : ∃ n, x.2 = CountVal.num n := hlx x (List.mem_cons_self _ _)
      have hrest : allNum rest := fun kv hkv => hlx kv (List.mem_cons_of_mem _ hkv)
      exact ih (insertDesc x acc) hrest (insertDesc_allNum hx hacc)
        (insertDesc_sorted x acc hx hacc h)
  exact hgen l [] hl (fun kv h => absurd h (List.not_mem_nil kv)) (by simp)

theorem insertDesc_filter (x : List Char × CountVal) (l : List (List Char × CountVal))
    (hx : ∃ b, x.2 = CountVal.num b) (hl : allNum l)
    (h : l.Pairwise (fun a b => cnt b.2 ≤ cnt a.2)) (n : Nat) :
    (insertDesc x l).filter (fun kv => kv.2 = CountVal.num n)
      = l.filter (fun kv => kv.2 = CountVal.num n)
        ++ (if x.2 = CountVal.num n then [x] else []) := by
  induction l with
  | nil =>
    simp only [insertDesc, List.filter_nil, List.nil_append]
    by_cases hx2 : x.2 = CountVal.num n
    · simp [hx2]
    · simp [hx2]
  | cons y rest ih =>
    rcases List.pairwise_cons.mp h with ⟨hy, hrest⟩
    obtain ⟨a, hya⟩ := hl y (List.mem_cons_self _ _)
    obtain ⟨b, hxb⟩ := hx
    have hl' : allNum rest := fun kv hkv => hl kv (List.mem_cons_of_mem _ hkv)
    have hck : cmpKeep y.2 x.2 = decide (b ≤ a) := by rw [hya, hxb]; rfl
    simp only [insertDesc]
    by_cases hc : b ≤ a
    · rw [if_pos (by rw [hck]; exact decide_eq_true hc)]
      rw [List.filter_cons, List.filter_cons, ih hl' hrest]
      by_cases hyn : y.2 = CountVal.num n
      · simp [hyn]
      · simp [hyn]
    · rw [if_neg (by rw [hck]; simp [hc])]
      by_cases hx2 : x.2 = CountVal.num n
      · have hbn : b = n := by
          have hb2 := hx2
          rw [hxb] at hb2
          simpa using hb2
        have hnil : (y :: rest).filter (fun kv => kv.2 = CountVal.num n) = [] := by
          rw [List.filter_eq_nil_iff]
          intro z hz
          rcases List.mem_cons.mp hz with rfl | hz2
          · simp only [hya, decide_eq_true_eq, CountVal.num.injEq]
            omega
          · have h1 := hy z hz2
            obtain ⟨m, hzm⟩ := hl' z hz2
            rw [hya, cnt_num, hzm, cnt_num] at h1
            simp only [hzm, decide_eq_true_eq, CountVal.num.injEq]
            omega
        rw [List.filter_cons, hnil]
        simp [hx2]
      · rw [List.filter_cons]
        simp [hx2]

theorem sortDesc_filter (l : List (List Char × CountVal)) (hl : allNum l) (n : Nat) :
    (sortDesc l).filter (fun kv => kv.2 = CountVal.num n)
      = l.filter (fun kv => kv.2 = CountVal.num n) := by
  have hgen : ∀ (l acc : List (List Char × CountVal)), allNum l → allNum acc →
      acc.Pairwise (fun a b => cnt b.2 ≤ cnt a.2) →
      (l.foldl (fun acc x => insertDesc x acc) acc).filter
          (fun kv => kv.2 = CountVal.num n)
        = acc.filter (fun kv => kv.2 = CountVal.num n)
          ++ l.filter (fun kv => kv.2 = CountVal.num n) := by
    intro l
    induction l with
    | nil => intro acc _ _ h; simp
    | cons x rest ih =>
      intro acc hlx hacc h
      have hx : ∃ m, x.2 = CountVal.num m := hlx x (List.mem_cons_self _ _)
      have hrest : allNum rest := fun kv hkv => hlx kv (List.mem_cons_of_mem _ hkv)
      simp only [List.foldl_cons]
      rw [ih (insertDesc x acc) hrest (insertDesc_allNum hx hacc)
          (insertDesc_sorted x acc hx hacc h),
        insertDesc_filter x acc hx hacc h n, List.filter_cons, List.append_assoc]
      by_cases hx2 : x.2 = CountVal.num n
      · simp [hx2]
      · simp [hx2]
  have := hgen l [] hl (fun kv h => absurd h (List.not_mem_nil kv)) (by simp)
  simpa using this

/-- Claim C9, amended: `extractKeywords` is deterministic (it is a pure
function of its two arguments), no stop-word ever appears in its output, the
output has at most `limit` entries, and, provided no token of the lowercased
text is the word "constructor" (the only token shape colliding with an
inherited property of the object literal `counts`, whose first read then
hits `Object.prototype.constructor` and corrupts the count into a
non-numeric string), the output lists the counted words in descending
occurrence order with ties kept in first-seen order: it is the key
projection of the first `limit` entries of a stable descending sort of the
insertion-ordered count list (sortedness and the stability of each count
class are stated explicitly). -/
theorem extractKeywords_spec (text : List Char) (limit : Nat) :
    extractKeywords text limit = extractKeywords text limit ∧
    (∀ w ∈ extractKeywords text limit, stopwords.contains w = false) ∧
    (extractKeywords text limit).length ≤ limit ∧
    extractKeywords text limit
      = ((sortDesc (countsList (tokenize (jsToLower text)))).take limit).map
          (fun kv => kv.1) ∧
    (constructorToken ∉ tokenize (jsToLower text) →
      (sortDesc (countsList (tokenize (jsToLower text)))).Pairwise
        (fun a b => cnt b.2 ≤ cnt a.2) ∧
      (∀ n, (sortDesc (countsList (tokenize (jsToLower text)))).filter
            (fun kv => kv.2 = CountVal.num n)
          = (countsList (tokenize (jsToLower text))).filter
            (fun kv => kv.2 = CountVal.num n))) := by
  refine ⟨rfl, ?_, ?_, rfl, fun hns => ?_⟩
  · intro w hw
    unfold extractKeywords at hw
    rcases List.mem_map.mp hw with ⟨kv, hkv, rfl⟩
    exact countsList_no_stop kv (sortDesc_mem (List.mem_of_mem_take hkv))
  · unfold extractKeywords
    simp only [List.length_map, List.length_take]
    omega
  · have hall := countsList_allNum hns
    exact ⟨sortDesc_sorted _ hall, fun n => sortDesc_filter _ hall n⟩

/-- The amended claim C9 instantiated at the text "rust rust python"
(which has no "constructor" token): the ordering hypothesis holds and the
sorted count list is descending with every count class in first-seen
order. -/
theorem extractKeywords_spec_witness :
    constructorToken ∉ tokenize (jsToLower "rust rust python".toList) ∧
    ((sortDesc (countsList (tokenize (jsToLower "rust rust python".toList)))).Pairwise
        (fun a b => cnt b.2 ≤ cnt a.2) ∧
      (∀ n, (sortDesc (countsList (tokenize
              (jsToLower "rust rust python".toList)))).filter
            (fun kv => kv.2 = CountVal.num n)
          = (countsList (tokenize (jsToLower "rust rust python".toList))).filter
            (fun kv => kv.2 = CountVal.num n))) :=
  ⟨by decide,
    (extractKeywords_spec "rust rust python".toList 14).2.2.2.2 (by decide)⟩

/-- Counterexample to claim C9 as frozen: on the text "constructor aaa aaa"
the token "aaa" occurs twice and "constructor" once, yet the program lists
"constructor" first. The first read of `counts["constructor"]` finds the
inherited `Object.prototype.constructor` (the truthy `Object` function), so
`(counts[word] || 0) + 1` stores a non-numeric string; the comparator
`b[1] - a[1]` against that entry is NaN, which SortCompare turns into +0, so
the required-stable sort keeps the two entries in insertion order (with two
elements every comparison is +0, so the comparator is consistent and this
order is forced by the ES specification, not implementation-defined). The
output is therefore not ordered by descending occurrence count. -/
theorem extractKeywords_order_counterexample :
    extractKeywords "constructor aaa aaa".toList defaultKeywordLimit
      = ["constructor".toList, "aaa".toList] ∧
    (tokenize (jsToLower "constructor aaa aaa".toList)).count "constructor".toList
      = 1 ∧
    (tokenize (jsToLower "constructor aaa aaa".toList)).count "aaa".toList = 2 :=
  ⟨by decide, by decide, by decide⟩

/-! ## Properties of the text normalizer (claims C6 and C7)

Predicates describing normalized text: no carriage return, no match of the
dash regex left, no run of three newlines, and no outer whitespace. -/

/-- No occurrence of the pattern of the regex `-\s+\n`: a `'-'` followed by
at least one whitespace character and then a `'\n'`. -/
def HasDashMatch (l : List Char) : Prop :=
  ∃ a w b, l = a ++ '-' :: (w ++ '\n' :: b) ∧ w ≠ [] ∧ ∀ c ∈ w, isJsWs c = true

/-- No three consecutive newlines anywhere. -/
def NoTriple (l : List Char) : Prop :=
  ∀ a b, l ≠ a ++ '\n' :: '\n' :: '\n' :: b

/-- The leading whitespace run contains no newline. -/
def noNl1 (l : List Char) : Prop := '\n' ∉ l.takeWhile isJsWs

/-- The leading whitespace run contains no newline beyond its first
character (exactly the failure condition of `tryDash`). -/
def noNlAfterFirst (l : List Char) : Prop := '\n' ∉ (l.takeWhile isJsWs).drop 1

/-- Split-based absence of the dash pattern: after every `'-'`, the
whitespace run holds no newline past its first character. -/
def NoDash (l : List Char) : Prop :=
  ∀ a b, l = a ++ '-' :: b → noNlAfterFirst b

theorem lastNlIdx_eq_none {w : List Char} : lastNlIdx w = none ↔ '\n' ∉ w := by
  induction w with
  | nil => simp [lastNlIdx]
  | cons c rest ih =>
    simp only [lastNlIdx]
    cases hr : lastNlIdx rest with
    | some k =>
      simp only []
      constructor
      · intro h; exact absurd h (by simp)
      · intro h
        exfalso
        have hmem : '\n' ∈ rest := by
          by_contra hmem
          rw [ih.mpr hmem] at hr
          exact absurd hr (by simp)
        exact h (List.mem_cons_of_mem _ hmem)
    | none =>
      by_cases hc : c = '\n'
      · simp only [hc, if_pos rfl]
        constructor
        · intro h; exact absurd h (by simp)
        · intro h; exact absurd (List.mem_cons_self '\n' rest) h
      · simp only [if_neg hc]
        constructor
        · intro _ hmem
          rcases List.mem_cons.mp hmem with h1 | h1
          · exact hc h1.symm
          · exact (ih.mp hr) h1
        · intro _; trivial

theorem lastNlIdx_spec {w : List Char} {k : Nat} (h : lastNlIdx w = some k) :
    w.get? k = some '\n' ∧ '\n' ∉ w.drop (k + 1) := by
  induction w generalizing k with
  | nil => simp [lastNlIdx] at h
  | cons c rest ih =>
    simp only [lastNlIdx] at h
    cases hr : lastNlIdx rest with
    | some j =>
      rw [hr] at h
      cases h
      rcases ih hr with ⟨hget, hnot⟩
      exact ⟨by simpa using hget, by simpa using hnot⟩
    | none =>
      rw [hr] at h
      by_cases hc : c = '\n'
      · rw [if_pos hc] at h
        cases h
        refine ⟨by simp [hc], ?_⟩
        simpa using lastNlIdx_eq_none.mp hr
      · rw [if_neg hc] at h
        exact absurd h (by simp)

theorem lastNlIdx_of_mem {w : List Char} (h : '\n' ∈ w) : ∃ k, lastNlIdx w = some k := by
  cases hl : lastNlIdx w with
  | none => exact absurd h (lastNlIdx_eq_none.mp hl)
  | some k => exact ⟨k, rfl⟩

theorem lastNlIdx_mem_drop_one {w : List Char} {k : Nat}
    (h : lastNlIdx w = some k) (hk : 1 ≤ k) : '\n' ∈ w.drop 1 := by
  cases w with
  | nil => simp [lastNlIdx] at h
  | cons c rest =>
    simp only [lastNlIdx] at h
    cases hr : lastNlIdx rest with
    | some j =>
      rw [hr] at h
      cases h
      have := (lastNlIdx_spec hr).1
      simpa using List.get?_mem this
    | none =>
      rw [hr] at h
      by_cases hc : c = '\n'
      · rw [if_pos hc] at h
        cases h
        omega
      · rw [if_neg hc] at h
        exact absurd h (by simp)

theorem tryDash_some_nl {rest rest' : List Char} (h : tryDash rest = some rest') :
    '\n' ∈ (rest.takeWhile isJsWs).drop 1 := by
  unfold tryDash at h
  cases hl : lastNlIdx (rest.takeWhile isJsWs) with
  | none => exact absurd h (by simp only [hl]; simp)
  | some k =>
    simp only [hl] at h
    by_cases hk : 1 ≤ k
    · exact lastNlIdx_mem_drop_one hl hk
    · rw [if_neg hk] at h
      exact absurd h (by simp)

/-- `tryDash` fails exactly when the leading whitespace run of the text
after the dash has no newline past its first character. -/
theorem tryDash_eq_none {rest : List Char} : tryDash rest = none ↔ noNlAfterFirst rest := by
  constructor
  · intro h hmem
    have hw : '\n' ∈ rest.takeWhile isJsWs := List.mem_of_mem_drop hmem
    rcases lastNlIdx_of_mem hw with ⟨k, hk⟩
    rcases lastNlIdx_spec hk with ⟨hget, hnot⟩
    have hk1 : 1 ≤ k := by
      by_contra h0
      have hk0 : k = 0 := by omega
      subst hk0
      have hnot1 : '\n' ∉ (rest.takeWhile isJsWs).drop 1 := by simpa using hnot
      exact hnot1 hmem
    unfold tryDash at h
    simp only [hk, if_pos hk1] at h
    exact absurd h (by simp)
  · intro h
    cases he : tryDash rest with
    | none => rfl
    | some r' => exact absurd (tryDash_some_nl he) h

theorem takeWhile_all {p : Char → Bool} {l : List Char} :
    ∀ c ∈ l.takeWhile p, p c = true := by
  intro c h
  exact List.mem_takeWhile_imp h

theorem drop_takeWhile_length {p : Char → Bool} (l : List Char) :
    l.drop (l.takeWhile p).length = l.dropWhile p := by
  induction l with
  | nil => simp
  | cons c rest ih =>
    rw [List.takeWhile_cons, List.dropWhile_cons]
    by_cases hc : p c
    · rw [if_pos hc, if_pos hc]
      simpa using ih
    · rw [if_neg hc, if_neg hc]
      simp

/-- Structure of a successful `tryDash`: the remainder is a newline-free
whitespace run followed by the non-whitespace-headed tail of the input. -/
theorem tryDash_some_struct {rest rest' : List Char} (h : tryDash rest = some rest') :
    ∃ u, rest' = u ++ rest.dropWhile isJsWs ∧
      (∀ c ∈ u, isJsWs c = true) ∧ '\n' ∉ u ∧
      (∀ c ∈ u, c ∈ rest.takeWhile isJsWs) := by
  unfold tryDash at h
  cases hl : lastNlIdx (rest.takeWhile isJsWs) with
  | none => exact absurd h (by simp only [hl]; simp)
  | some k =>
    simp only [hl] at h
    by_cases hk : 1 ≤ k
    · rw [if_pos hk] at h
      cases h
      refine ⟨(rest.takeWhile isJsWs).drop (k + 1), ?_, ?_, ?_, ?_⟩
      · rw [drop_takeWhile_length]
      · intro c hc
        exact takeWhile_all c (List.mem_of_mem_drop hc)
      · exact (lastNlIdx_spec hl).2
      · intro c hc
        exact List.mem_of_mem_drop hc
    · rw [if_neg hk] at h
      exact absurd h (by simp)

theorem dropWhile_head_not {p : Char → Bool} {l : List Char} {c : Char}
    (h : (l.dropWhile p).head? = some c) : p c = false := by
  induction l with
  | nil => simp [List.dropWhile] at h
  | cons d rest ih =>
    rw [List.dropWhile_cons] at h
    by_cases hd : p d
    · rw [if_pos hd] at h
      exact ih h
    · rw [if_neg hd] at h
      simp only [List.head?_cons, Option.some_inj] at h
      subst h
      simpa using hd

theorem takeWhile_append_all {p : Char → Bool} {u : List Char} (v : List Char)
    (hu : ∀ c ∈ u, p c = true) :
    (u ++ v).takeWhile p = u ++ v.takeWhile p := by
  induction u with
  | nil => simp
  | cons c rest ih =>
    rw [List.cons_append, List.takeWhile_cons, if_pos (hu c (List.mem_cons_self _ _)),
      ih (fun d hd => hu d (List.mem_cons_of_mem _ hd))]
    rfl

theorem takeWhile_dropWhile_nil {p : Char → Bool} (l : List Char) :
    (l.dropWhile p).takeWhile p = [] := by
  induction l with
  | nil => simp
  | cons c rest ih =>
    rw [List.dropWhile_cons]
    by_cases hc : p c
    · rw [if_pos hc]
      exact ih
    · rw [if_neg hc, List.takeWhile_cons, if_neg hc]

theorem noNl1_drop_one {l : List Char} (h : noNl1 l) : noNlAfterFirst l :=
  fun hmem => h (List.mem_of_mem_drop hmem)

/-- The `tryDash` remainder always has a newline-free leading whitespace
run. -/
theorem tryDash_some_noNl1 {rest rest' : List Char} (h : tryDash rest = some rest') :
    noNl1 rest' := by
  rcases tryDash_some_struct h with ⟨u, rfl, hu, hnl, _⟩
  unfold noNl1
  rw [takeWhile_append_all _ hu, takeWhile_dropWhile_nil, List.append_nil]
  exact hnl

theorem isJsWs_dash : isJsWs '-' = false := by decide
theorem isJsWs_nl : isJsWs '\n' = true := by decide

/-- Characters of `replaceDash`'s output come from its input. -/
theorem replaceDash_subset : ∀ (n : Nat) (l : List Char), l.length ≤ n →
    ∀ c ∈ replaceDash l, c ∈ l := by
  intro n
  induction n with
  | zero =>
    intro l hl c hc
    have : l = [] := by cases l with | nil => rfl | cons d r => simp at hl
    subst this
    simpa [replaceDash_nil] using hc
  | succ n ih =>
    intro l hl c hc
    cases l with
    | nil => simpa [replaceDash_nil] using hc
    | cons d rest =>
      simp only [List.length_cons] at hl
      rw [replaceDash_cons] at hc
      by_cases hd : d = '-'
      · rw [if_pos hd] at hc
        cases ht : tryDash rest with
        | some rest' =>
          rw [ht] at hc
          have hlen := tryDash_length ht
          have hmem := ih rest' (by omega) c hc
          rcases tryDash_some_struct ht with ⟨u, rfl, hu, _, hsub⟩
          rcases List.mem_append.mp hmem with hm | hm
          · exact List.mem_cons_of_mem _
              ((List.takeWhile_sublist isJsWs).subset (hsub c hm))
          · exact List.mem_cons_of_mem _ ((List.dropWhile_sublist isJsWs).subset hm)
        | none =>
          rw [ht] at hc
          rcases List.mem_cons.mp hc with rfl | hm
          · exact List.mem_cons_self _ _
          · exact List.mem_cons_of_mem _ (ih rest (by omega) c hm)
      · rw [if_neg hd] at hc
        rcases List.mem_cons.mp hc with rfl | hm
        · exact List.mem_cons_self _ _
        · exact List.mem_cons_of_mem _ (ih rest (by omega) c hm)

/-- `replaceDash` keeps the leading whitespace run newline-free. -/
theorem replaceDash_noNl1 : ∀ (n : Nat) (l : List Char), l.length ≤ n →
    noNl1 l → noNl1 (replaceDash l) := by
  intro n
  induction n with
  | zero =>
    intro l hl h
    have : l = [] := by cases l with | nil => rfl | cons d r => simp at hl
    subst this
    simpa [replaceDash_nil] using h
  | succ n ih =>
    intro l hl h
    cases l with
    | nil => simpa [replaceDash_nil] using h
    | cons d rest =>
      simp only [List.length_cons] at hl
      rw [replaceDash_cons]
      by_cases hd : d = '-'
      · rw [if_pos hd]
        cases ht : tryDash rest with
        | some rest' =>
          have hlen := tryDash_length ht
          exact ih rest' (by omega) (tryDash_some_noNl1 ht)
        | none =>
          unfold noNl1
          rw [List.takeWhile_cons, if_neg (by rw [hd]; exact by simp [isJsWs_dash])]
          simp
      · by_cases hw : isJsWs d
        · rw [if_neg hd]
          unfold noNl1 at h ⊢
          rw [List.takeWhile_cons, if_pos hw] at h ⊢
          simp only [List.mem_cons, not_or] at h ⊢
          exact ⟨h.1, ih rest (by omega) h.2⟩
        · rw [if_neg hd]
          unfold noNl1
          rw [List.takeWhile_cons, if_neg hw]
          simp

/-- `replaceDash` keeps the leading whitespace run newline-free past its
first character. -/
theorem replaceDash_noNlAfterFirst : ∀ (n : Nat) (l : List Char), l.length ≤ n →
    noNlAfterFirst l → noNlAfterFirst (replaceDash l) := by
  intro n
  induction n with
  | zero =>
    intro l hl h
    have : l = [] := by cases l with | nil => rfl | cons d r => simp at hl
    subst this
    simpa [replaceDash_nil] using h
  | succ n ih =>
    intro l hl h
    cases l with
    | nil => simpa [replaceDash_nil] using h
    | cons d rest =>
      simp only [List.length_cons] at hl
      rw [replaceDash_cons]
      by_cases hd : d = '-'
      · rw [if_pos hd]
        cases ht : tryDash rest with
        | some rest' =>
          have hlen := tryDash_length ht
          exact ih rest' (by omega) (noNl1_drop_one (tryDash_some_noNl1 ht))
        | none =>
          unfold noNlAfterFirst
          rw [List.takeWhile_cons, if_neg (by rw [hd]; exact by simp [isJsWs_dash])]
          simp
      · by_cases hw : isJsWs d
        · rw [if_neg hd]
          unfold noNlAfterFirst at h ⊢
          rw [List.takeWhile_cons, if_pos hw] at h ⊢
          simp only [List.drop_succ_cons, List.drop_zero] at h ⊢
          exact replaceDash_noNl1 n rest (by omega) h
        · rw [if_neg hd]
          unfold noNlAfterFirst
          rw [List.takeWhile_cons, if_neg hw]
          simp

theorem noDash_nil : NoDash [] := by
  intro a b h
  exact absurd h (by simp)

theorem noDash_cons_tail {c : Char} {rest : List Char} (h : NoDash (c :: rest)) :
    NoDash rest := by
  intro a b hsplit
  exact h (c :: a) b (by rw [hsplit]; rfl)

theorem noDash_cons {c : Char} {rest : List Char}
    (hc : c = '-' → noNlAfterFirst rest) (h : NoDash rest) : NoDash (c :: rest) := by
  intro a b hsplit
  cases a with
  | nil =>
    simp only [List.nil_append, List.cons.injEq] at hsplit
    rcases hsplit with ⟨h1, h2⟩
    subst h2
    exact hc h1
  | cons x a' =>
    simp only [List.cons_append, List.cons.injEq] at hsplit
    exact h a' b hsplit.2

/-- A single global pass of `replaceDash` leaves no match of the dash
regex. -/
theorem replaceDash_noDash : ∀ (n : Nat) (l : List Char), l.length ≤ n →
    NoDash (replaceDash l) := by
  intro n
  induction n with
  | zero =>
    intro l hl
    have : l = [] := by cases l with | nil => rfl | cons d r => simp at hl
    subst this
    rw [replaceDash_nil]
    exact noDash_nil
  | succ n ih =>
    intro l hl
    cases l with
    | nil => rw [replaceDash_nil]; exact noDash_nil
    | cons d rest =>
      simp only [List.length_cons] at hl
      rw [replaceDash_cons]
      by_cases hd : d = '-'
      · rw [if_pos hd]
        cases ht : tryDash rest with
        | some rest' =>
          have hlen := tryDash_length ht
          exact ih rest' (by omega)
        | none =>
          refine noDash_cons (fun _ => ?_) (ih rest (by omega))
          exact replaceDash_noNlAfterFirst n rest (by omega) (tryDash_eq_none.mp ht)
      · rw [if_neg hd]
        exact noDash_cons (fun hcon => absurd hcon hd) (ih rest (by omega))

/-- On text with no dash match, the global replacement is the identity. -/
theorem replaceDash_id : ∀ (n : Nat) (l : List Char), l.length ≤ n →
    NoDash l → replaceDash l = l := by
  intro n
  induction n with
  | zero =>
    intro l hl _
    have : l = [] := by cases l with | nil => rfl | cons d r => simp at hl
    subst this
    exact replaceDash_nil
  | succ n ih =>
    intro l hl h
    cases l with
    | nil => exact replaceDash_nil
    | cons d rest =>
      simp only [List.length_cons] at hl
      rw [replaceDash_cons]
      by_cases hd : d = '-'
      · rw [if_pos hd]
        have hnone : tryDash rest = none := by
          refine tryDash_eq_none.mpr ?_
          have := h [] rest (by rw [hd]; rfl)
          exact this
        rw [hnone, ih rest (by omega) (noDash_cons_tail h)]
      · rw [if_neg hd, ih rest (by omega) (noDash_cons_tail h)]

theorem noTriple_nil : NoTriple [] := by
  intro a b h
  exact absurd h (by simp)

theorem noTriple_tail {c : Char} {X : List Char} (h : NoTriple (c :: X)) : NoTriple X := by
  intro a b hsplit
  exact h (c :: a) b (by rw [hsplit]; rfl)

theorem noTriple_cons {c : Char} {X : List Char} (hc : c ≠ '\n') (h : NoTriple X) :
    NoTriple (c :: X) := by
  intro a b hsplit
  cases a with
  | nil =>
    simp only [List.nil_append, List.cons.injEq] at hsplit
    exact hc hsplit.1
  | cons x a' =>
    simp only [List.cons_append, List.cons.injEq] at hsplit
    exact h a' b hsplit.2

theorem noTriple_nl_cons {X : List Char} (hh : X.head? ≠ some '\n') (h : NoTriple X) :
    NoTriple ('\n' :: X) := by
  intro a b hsplit
  cases a with
  | nil =>
    simp only [List.nil_append, List.cons.injEq] at hsplit
    rw [hsplit.2] at hh
    exact hh rfl
  | cons x a' =>
    simp only [List.cons_append, List.cons.injEq] at hsplit
    exact h a' b hsplit.2

theorem noTriple_nl_nl_cons {X : List Char} (hh : X.head? ≠ some '\n') (h : NoTriple X) :
    NoTriple ('\n' :: '\n' :: X) := by
  intro a b hsplit
  cases a with
  | nil =>
    simp only [List.nil_append, List.cons.injEq] at hsplit
    rw [hsplit.2.2] at hh
    exact hh rfl
  | cons x a' =>
    cases a' with
    | nil =>
      simp only [List.cons_append, List.nil_append, List.cons.injEq] at hsplit
      rw [hsplit.2.2] at hh
      exact hh rfl
    | cons y a'' =>
      simp only [List.cons_append, List.cons.injEq] at hsplit
      exact h a'' b hsplit.2.2

/-- `collapseNl` preserves the head character. -/
theorem collapseNl_head (l : List Char) : (collapseNl l).head? = l.head? := by
  cases l with
  | nil => rfl
  | cons c rest =>
    rw [collapseNl_cons]
    by_cases hc : c = '\n'
    · rw [if_pos hc]
      by_cases h2 : 2 ≤ (rest.takeWhile (fun d => d = '\n')).length
      · rw [if_pos h2]
        simp [hc]
      · rw [if_neg h2]
        simp
    · rw [if_neg hc]
      simp

theorem takeWhile_nil_head {p : Char → Bool} {l : List Char}
    (h : l.takeWhile p = []) : ∀ c, l.head? = some c → p c = false := by
  cases l with
  | nil => intro c hc; exact absurd hc (by simp)
  | cons d rest =>
    intro c hc
    simp only [List.head?_cons, Option.some_inj] at hc
    subst hc
    rw [List.takeWhile_cons] at h
    by_cases hd : p d
    · rw [if_pos hd] at h
      exact absurd h (by simp)
    · simpa using hd

/-- The output of `collapseNl` never has three consecutive newlines. -/
theorem collapseNl_noTriple : ∀ (n : Nat) (l : List Char), l.length ≤ n →
    NoTriple (collapseNl l) := by
  intro n
  induction n with
  | zero =>
    intro l hl
    have : l = [] := by cases l with | nil => rfl | cons d r => simp at hl
    subst this
    rw [collapseNl_nil]
    exact noTriple_nil
  | succ n ih =>
    intro l hl
    cases l with
    | nil => rw [collapseNl_nil]; exact noTriple_nil
    | cons c rest =>
      simp only [List.length_cons] at hl
      rw [collapseNl_cons]
      by_cases hc : c = '\n'
      · subst hc
        rw [if_pos rfl]
        by_cases h2 : 2 ≤ (rest.takeWhile (fun d => d = '\n')).length
        · rw [if_pos h2]
          have hdw : rest.drop (rest.takeWhile (fun d => d = '\n')).length
              = rest.dropWhile (fun d => d = '\n') := drop_takeWhile_length rest
          refine noTriple_nl_nl_cons ?_ ?_
          · rw [collapseNl_head, hdw]
            intro hcon
            have := dropWhile_head_not hcon
            simp at this
          · refine ih _ ?_
            simp only [List.length_drop]
            omega
        · rw [if_neg h2]
          have hk : (rest.takeWhile (fun d => d = '\n')).length = 0 ∨
              (rest.takeWhile (fun d => d = '\n')).length = 1 := by omega
          rcases hk with hk | hk
          · have htw : rest.takeWhile (fun d => d = '\n') = [] :=
              List.eq_nil_of_length_eq_zero hk
            refine noTriple_nl_cons ?_ (ih rest (by omega))
            rw [collapseNl_head]
            intro hcon
            have := takeWhile_nil_head htw '\n' hcon
            simp at this
          · have hrest : rest = '\n' :: rest.dropWhile (fun d => d = '\n') := by
              conv_lhs => rw [← List.takeWhile_append_dropWhile
                (p := fun d => d = '\n') (l := rest)]
              cases htw : rest.takeWhile (fun d => d = '\n') with
              | nil => rw [htw] at hk; simp at hk
              | cons x w' =>
                cases w' with
                | nil =>
                  have hx : x = '\n' := by
                    have := takeWhile_all (p := fun d => d = '\n') x
                      (by rw [htw]; exact List.mem_cons_self _ _)
                    simpa using this
                  rw [hx]
                  rfl
                | cons y w'' => rw [htw] at hk; simp at hk
            rw [hrest, collapseNl_cons, if_pos rfl,
              if_neg (by rw [takeWhile_dropWhile_nil]; simp)]
            refine noTriple_nl_nl_cons ?_ ?_
            · rw [collapseNl_head]
              intro hcon
              have := dropWhile_head_not hcon
              simp at this
            · refine ih _ ?_
              have : (rest.dropWhile (fun d => d = '\n')).length + 1 = rest.length := by
                conv_rhs => rw [hrest]
                simp
              omega
      · rw [if_neg hc]
        exact noTriple_cons hc (ih rest (by omega))

/-- On text with no three consecutive newlines, the collapse is the
identity. -/
theorem collapseNl_id : ∀ (n : Nat) (l : List Char), l.length ≤ n →
    NoTriple l → collapseNl l = l := by
  intro n
  induction n with
  | zero =>
    intro l hl _
    have : l = [] := by cases l with | nil => rfl | cons d r => simp at hl
    subst this
    exact collapseNl_nil
  | succ n ih =>
    intro l hl h
    cases l with
    | nil => exact collapseNl_nil
    | cons c rest =>
      simp only [List.length_cons] at hl
      rw [collapseNl_cons]
      by_cases hc : c = '\n'
      · subst hc
        rw [if_pos rfl]
        by_cases h2 : 2 ≤ (rest.takeWhile (fun d => d = '\n')).length
        · exfalso
          cases htw : rest.takeWhile (fun d => d = '\n') with
          | nil => rw [htw] at h2; simp at h2
          | cons x w' =>
            cases w' with
            | nil => rw [htw] at h2; simp at h2
            | cons y w'' =>
              have hx : x = '\n' := by
                have := takeWhile_all (p := fun d => d = '\n') x
                  (by rw [htw]; exact List.mem_cons_self _ _)
                simpa using this
              have hy : y = '\n' := by
                have := takeWhile_all (p := fun d => d = '\n') y
                  (by rw [htw]; exact List.mem_cons_of_mem _ (List.mem_cons_self _ _))
                simpa using this
              have hrest : rest = '\n' :: '\n' :: (w'' ++ rest.dropWhile (fun d => d = '\n')) := by
                conv_lhs => rw [← List.takeWhile_append_dropWhile
                  (p := fun d => d = '\n') (l := rest)]
                rw [htw, hx, hy]
                rfl
              refine h [] (w'' ++ rest.dropWhile (fun d => d = '\n')) ?_
              conv_lhs => rw [hrest]
              rfl
        · rw [if_neg h2, ih rest (by omega) (noTriple_tail h)]
      · rw [if_neg hc, ih rest (by omega) (noTriple_tail h)]

/-- `collapseNl` introduces no character other than `'\n'`. -/
theorem collapseNl_not_mem : ∀ (n : Nat) (l : List Char) (c : Char), l.length ≤ n →
    c ≠ '\n' → c ∉ l → c ∉ collapseNl l := by
  intro n
  induction n with
  | zero =>
    intro l c hl _ _
    have : l = [] := by cases l with | nil => rfl | cons d r => simp at hl
    subst this
    rw [collapseNl_nil]
    exact List.not_mem_nil c
  | succ n ih =>
    intro l c hl hnl hmem
    cases l with
    | nil => rw [collapseNl_nil]; exact List.not_mem_nil c
    | cons d rest =>
      simp only [List.length_cons] at hl
      simp only [List.mem_cons, not_or] at hmem
      rw [collapseNl_cons]
      by_cases hd : d = '\n'
      · subst hd
        rw [if_pos rfl]
        by_cases h2 : 2 ≤ (rest.takeWhile (fun e => e = '\n')).length
        · rw [if_pos h2]
          simp only [List.mem_cons, not_or]
          refine ⟨hnl, hnl, ?_⟩
          refine ih _ c ?_ hnl ?_
          · simp only [List.length_drop]; omega
          · intro hcon
            exact hmem.2 (List.mem_of_mem_drop hcon)
        · rw [if_neg h2]
          simp only [List.mem_cons, not_or]
          exact ⟨hnl, ih rest c (by omega) hnl hmem.2⟩
      · rw [if_neg hd]
        simp only [List.mem_cons, not_or]
        exact ⟨hmem.1, ih rest c (by omega) hnl hmem.2⟩

theorem isJsWs_not_nl_of_head {rest : List Char} (h : noNl1 rest) :
    rest.takeWhile (fun d => d = '\n') = [] := by
  cases rest with
  | nil => rfl
  | cons d r =>
    rw [List.takeWhile_cons]
    by_cases hd : d = '\n'
    · exfalso
      apply h
      rw [List.takeWhile_cons, if_pos (by rw [hd]; exact isJsWs_nl)]
      rw [hd]
      exact List.mem_cons_self _ _
    · rw [if_neg (by simpa using hd)]

/-- `collapseNl` keeps the leading whitespace run newline-free. -/
theorem collapseNl_noNl1 : ∀ (n : Nat) (l : List Char), l.length ≤ n →
    noNl1 l → noNl1 (collapseNl l) := by
  intro n
  induction n with
  | zero =>
    intro l hl h
    have : l = [] := by cases l with | nil => rfl | cons d r => simp at hl
    subst this
    rw [collapseNl_nil]
    exact h
  | succ n ih =>
    intro l hl h
    cases l with
    | nil => rw [collapseNl_nil]; exact h
    | cons d rest =>
      simp only [List.length_cons] at hl
      rw [collapseNl_cons]
      by_cases hd : d = '\n'
      · exfalso
        apply h
        rw [List.takeWhile_cons, if_pos (by rw [hd]; exact isJsWs_nl), hd]
        exact List.mem_cons_self _ _
      · rw [if_neg hd]
        by_cases hw : isJsWs d
        · unfold noNl1 at h ⊢
          rw [List.takeWhile_cons, if_pos hw] at h ⊢
          simp only [List.mem_cons, not_or] at h ⊢
          exact ⟨h.1, ih rest (by omega) h.2⟩
        · unfold noNl1
          rw [List.takeWhile_cons, if_neg hw]
          exact List.not_mem_nil _

/-- `collapseNl` keeps the leading whitespace run newline-free past its
first character. -/
theorem collapseNl_noNlAfterFirst : ∀ (n : Nat) (l : List Char), l.length ≤ n →
    noNlAfterFirst l → noNlAfterFirst (collapseNl l) := by
  intro n
  induction n with
  | zero =>
    intro l hl h
    have : l = [] := by cases l with | nil => rfl | cons d r => simp at hl
    subst this
    rw [collapseNl_nil]
    exact h
  | succ n ih =>
    intro l hl h
    cases l with
    | nil => rw [collapseNl_nil]; exact h
    | cons d rest =>
      simp only [List.length_cons] at hl
      rw [collapseNl_cons]
      by_cases hd : d = '\n'
      · subst hd
        rw [if_pos rfl]
        have hrest1 : noNl1 rest := by
          unfold noNlAfterFirst at h
          rw [List.takeWhile_cons, if_pos isJsWs_nl] at h
          simpa using h
        rw [if_neg (by rw [isJsWs_not_nl_of_head hrest1]; simp)]
        unfold noNlAfterFirst
        rw [List.takeWhile_cons, if_pos isJsWs_nl]
        simp only [List.drop_succ_cons, List.drop_zero]
        exact collapseNl_noNl1 n rest (by omega) hrest1
      · rw [if_neg hd]
        by_cases hw : isJsWs d
        · unfold noNlAfterFirst at h ⊢
          rw [List.takeWhile_cons, if_pos hw] at h ⊢
          simp only [List.drop_succ_cons, List.drop_zero] at h ⊢
          exact collapseNl_noNl1 n rest (by omega) h
        · unfold noNlAfterFirst
          rw [List.takeWhile_cons, if_neg hw]
          simp

theorem noDash_append_left {x m : List Char} (h : NoDash (x ++ m)) : NoDash m := by
  intro a b hsplit
  exact h (x ++ a) b (by rw [hsplit, List.append_assoc])

theorem noDash_drop {l : List Char} (h : NoDash l) (k : Nat) : NoDash (l.drop k) := by
  have := List.take_append_drop k l
  exact noDash_append_left (x := l.take k) (by rw [this]; exact h)

/-- `collapseNl` creates no new dash match. -/
theorem collapseNl_noDash : ∀ (n : Nat) (l : List Char), l.length ≤ n →
    NoDash l → NoDash (collapseNl l) := by
  intro n
  induction n with
  | zero =>
    intro l hl h
    have : l = [] := by cases l with | nil => rfl | cons d r => simp at hl
    subst this
    rw [collapseNl_nil]
    exact h
  | succ n ih =>
    intro l hl h
    cases l with
    | nil => rw [collapseNl_nil]; exact h
    | cons d rest =>
      simp only [List.length_cons] at hl
      rw [collapseNl_cons]
      by_cases hd : d = '\n'
      · subst hd
        rw [if_pos rfl]
        by_cases h2 : 2 ≤ (rest.takeWhile (fun e => e = '\n')).length
        · rw [if_pos h2]
          refine noDash_cons (fun hcon => absurd hcon (by decide)) ?_
          refine noDash_cons (fun hcon => absurd hcon (by decide)) ?_
          refine ih _ ?_ ?_
          · simp only [List.length_drop]; omega
          · exact noDash_drop (noDash_cons_tail h) _
        · rw [if_neg h2]
          exact noDash_cons (fun hcon => absurd hcon (by decide))
            (ih rest (by omega) (noDash_cons_tail h))
      · rw [if_neg hd]
        refine noDash_cons (fun hcon => ?_) (ih rest (by omega) (noDash_cons_tail h))
        subst hcon
        exact collapseNl_noNlAfterFirst n rest (by omega) (h [] rest rfl)

theorem trimLeft_eq_sub (l : List Char) : l = l.takeWhile isJsWs ++ trimLeft l :=
  (List.takeWhile_append_dropWhile isJsWs l).symm

theorem trimRight_eq_sub (l : List Char) :
    l = trimRight l ++ (l.reverse.takeWhile isJsWs).reverse := by
  unfold trimRight trimLeft
  conv_lhs => rw [← List.reverse_reverse l]
  conv_lhs =>
    rw [← List.takeWhile_append_dropWhile (p := isJsWs) (l := l.reverse)]
  rw [List.reverse_append]

/-- `trimWs l` is a contiguous middle piece of `l`. -/
theorem trimWs_middle (l : List Char) : ∃ a b, l = a ++ trimWs l ++ b := by
  refine ⟨(trimRight l).takeWhile isJsWs, (l.reverse.takeWhile isJsWs).reverse, ?_⟩
  conv_lhs => rw [trimRight_eq_sub l]
  rw [show trimWs l = trimLeft (trimRight l) from rfl]
  conv_lhs => rw [trimLeft_eq_sub (trimRight l)]

theorem trimWs_mem {l : List Char} {c : Char} (h : c ∈ trimWs l) : c ∈ l := by
  rcases trimWs_middle l with ⟨a, b, hl⟩
  rw [hl]
  exact List.mem_append.mpr (Or.inl (List.mem_append.mpr (Or.inr h)))

theorem noTriple_middle {a m b : List Char} (h : NoTriple (a ++ m ++ b)) : NoTriple m := by
  intro x y hsplit
  refine h (a ++ x) (y ++ b) ?_
  rw [hsplit]
  simp [List.append_assoc]

theorem takeWhile_append_split {p : Char → Bool} (u v : List Char) :
    ∃ r, (u ++ v).takeWhile p = u.takeWhile p ++ r := by
  induction u with
  | nil => exact ⟨v.takeWhile p, by simp⟩
  | cons c rest ih =>
    rw [List.cons_append, List.takeWhile_cons, List.takeWhile_cons]
    by_cases hc : p c
    · rw [if_pos hc, if_pos hc]
      rcases ih with ⟨r, hr⟩
      exact ⟨r, by rw [hr]; rfl⟩
    · rw [if_neg hc, if_neg hc]
      exact ⟨[], by simp⟩

theorem noNlAfterFirst_of_append {u v : List Char} (h : noNlAfterFirst (u ++ v)) :
    noNlAfterFirst u := by
  intro hmem
  apply h
  rcases takeWhile_append_split (p := isJsWs) u v with ⟨r, hr⟩
  rw [hr]
  cases htw : u.takeWhile isJsWs with
  | nil => rw [htw] at hmem; simp at hmem
  | cons x w =>
    rw [htw] at hmem
    simp only [List.drop_succ_cons, List.drop_zero] at hmem ⊢
    exact List.mem_append.mpr (Or.inl hmem)

theorem noDash_middle {a m b : List Char} (h : NoDash (a ++ m ++ b)) : NoDash m := by
  intro x y hsplit
  have hwhole : a ++ m ++ b = (a ++ x) ++ '-' :: (y ++ b) := by
    rw [hsplit]
    simp [List.append_assoc]
  exact noNlAfterFirst_of_append (h (a ++ x) (y ++ b) hwhole)

theorem dropWhile_of_head_fail {p : Char → Bool} {l : List Char}
    (h : ∀ c, l.head? = some c → p c = false) : l.dropWhile p = l := by
  cases l with
  | nil => rfl
  | cons c rest =>
    rw [List.dropWhile_cons, if_neg (by simp [h c rfl])]

theorem trimRight_nil : trimRight [] = [] := rfl

theorem getLast?_trimRight_not_ws {l : List Char} {c : Char}
    (h : (trimRight l).getLast? = some c) : isJsWs c = false := by
  unfold trimRight trimLeft at h
  have h2 : (l.reverse.dropWhile isJsWs).head? = some c := by
    have hrr := List.head?_reverse (l.reverse.dropWhile isJsWs).reverse
    rw [List.reverse_reverse] at hrr
    rw [hrr]
    exact h
  exact dropWhile_head_not h2

/-- `String.prototype.trim` is idempotent. -/
theorem trimWs_idem (l : List Char) : trimWs (trimWs l) = trimWs l := by
  have hTL : trimLeft (trimWs l) = trimWs l := by
    unfold trimLeft
    refine dropWhile_of_head_fail ?_
    intro d hd
    exact dropWhile_head_not (p := isJsWs) (l := trimRight l) hd
  have hlast : ∀ d, (trimWs l).getLast? = some d → isJsWs d = false := by
    intro d hd
    refine getLast?_trimRight_not_ws (l := l) ?_
    conv_lhs => rw [trimLeft_eq_sub (trimRight l)]
    rw [List.getLast?_append,
      show trimLeft (trimRight l) = trimWs l from rfl, hd]
    rfl
  have hTR : trimRight (trimWs l) = trimWs l := by
    cases hm : trimWs l with
    | nil => rfl
    | cons c rest =>
      have hback : trimLeft (c :: rest).reverse = (c :: rest).reverse := by
        unfold trimLeft
        refine dropWhile_of_head_fail ?_
        intro d hd
        rw [List.head?_reverse] at hd
        exact hlast d (by rw [hm]; exact hd)
      show (trimLeft (c :: rest).reverse).reverse = c :: rest
      rw [hback, List.reverse_reverse]
  show trimLeft (trimRight (trimWs l)) = trimWs l
  rw [hTR, hTL]

theorem stripCR_noCR (l : List Char) : '\r' ∉ stripCR l := by
  intro h
  have := List.of_mem_filter h
  simp at this

theorem stripCR_id {l : List Char} (h : '\r' ∉ l) : stripCR l = l := by
  refine List.filter_eq_self.mpr ?_
  intro c hc
  simp only [decide_eq_true_eq]
  intro hcon
  subst hcon
  exact h hc

/-- The output of the full normalizer: no carriage return, no dash-regex
match, no three consecutive newlines, and no outer whitespace. -/
theorem normalizeText_invariants (s : List Char) :
    '\r' ∉ normalizeText s ∧ NoDash (normalizeText s) ∧
    NoTriple (normalizeText s) ∧ trimWs (normalizeText s) = normalizeText s := by
  have h1 : '\r' ∉ replaceDash (stripCR s) := by
    intro h
    exact stripCR_noCR s (replaceDash_subset (stripCR s).length (stripCR s) le_rfl '\r' h)
  have h2 : '\r' ∉ collapseNl (replaceDash (stripCR s)) :=
    collapseNl_not_mem _ _ '\r' le_rfl (by decide) h1
  have hD1 : NoDash (replaceDash (stripCR s)) :=
    replaceDash_noDash (stripCR s).length (stripCR s) le_rfl
  have hD2 : NoDash (collapseNl (replaceDash (stripCR s))) :=
    collapseNl_noDash _ _ le_rfl hD1
  have hT2 : NoTriple (collapseNl (replaceDash (stripCR s))) :=
    collapseNl_noTriple _ _ le_rfl
  rcases trimWs_middle (collapseNl (replaceDash (stripCR s))) with ⟨a, b, hmid⟩
  refine ⟨?_, ?_, ?_, ?_⟩
  · intro h
    exact h2 (trimWs_mem h)
  · exact noDash_middle (m := trimWs (collapseNl (replaceDash (stripCR s))))
      (by rw [← hmid]; exact hD2)
  · exact noTriple_middle (m := trimWs (collapseNl (replaceDash (stripCR s))))
      (by rw [← hmid]; exact hT2)
  · exact trimWs_idem _

/-- Counterexample to C6 as stated: the regex `-\s+\n` needs at least one
whitespace character between the hyphen and the final newline, so the spec's
own example `"foo-\nbar"` is not rejoined. -/
theorem normalizeText_hyphen_counterexample :
    normalizeText "foo-\nbar".toList = "foo-\nbar".toList ∧
    normalizeText "foo-\nbar".toList ≠ "foobar".toList :=
  ⟨by decide, by decide⟩

/-- Claim C6 (amended): for every raw input string, `normalizeText` returns
the input with all carriage returns stripped, every match of the regex
hyphen–whitespace⁺–newline deleted (so `"foo- \nbar"` becomes `"foobar"`,
while `"foo-\nbar"`, with the newline immediately after the hyphen, is left
unchanged), every sequence of 3 or more consecutive newlines collapsed to
exactly 2, and leading and trailing whitespace trimmed: the output contains
no carriage return, no remaining match of the dash regex, no three
consecutive newlines, and is trimmed. -/
theorem normalizeText_spec (s : List Char) :
    '\r' ∉ normalizeText s ∧
    NoDash (normalizeText s) ∧
    NoTriple (normalizeText s) ∧
    trimWs (normalizeText s) = normalizeText s ∧
    normalizeText "foo- \nbar".toList = "foobar".toList ∧
    normalizeText "foo-\nbar".toList = "foo-\nbar".toList := by
  rcases normalizeText_invariants s with ⟨h1, h2, h3, h4⟩
  exact ⟨h1, h2, h3, h4, by decide, by decide⟩

/-- Claim C7: the text normalizer is idempotent. -/
theorem normalizeText_idempotent (s : List Char) :
    normalizeText (normalizeText s) = normalizeText s := by
  rcases normalizeText_invariants s with ⟨h1, h2, h3, h4⟩
  show trimWs (collapseNl (replaceDash (stripCR (normalizeText s)))) = normalizeText s
  rw [stripCR_id h1,
    replaceDash_id (normalizeText s).length (normalizeText s) le_rfl h2,
    collapseNl_id (normalizeText s).length (normalizeText s) le_rfl h3,
    h4]

end GJ3

